import Mathlib

/-!
# Polyphase resampler (flowgraph): embedding and verification

Shallow embedding of `src/flowgraph/PolyphaseResampler.cpp` and of the parts of
`src/flowgraph/MultiChannelResampler.h` it relies on.

* `int`/`int32_t` counts, sizes and cursors are natural numbers (the claims concern
  non-negative tap counts, positive rates and non-negative cursors).  The one product
  that can leave the range of an `int`, the table size `mNumTaps * ratio.getDenominator()`
  of `generateCoefficients`, is computed modulo `2 ^ 32` (`intProductSize`); the cursor
  arithmetic stays below the lengths of the vectors it indexes.
* `float` samples and coefficients are elements of a type `K`.  `readFrame` uses only the
  zero, the addition and the multiplication of `K`, of which no law is assumed, so its
  results hold for floating-point arithmetic; the lemmas that regroup the sum into a
  `Finset` sum ask for a semiring.
* The coefficient generator computes in a linearly ordered field `F` with a floor; the
  roundings to `float` and to `double` of the source are the two functions of a
  `FloatingPoint F`.  `exactArithmetic` rounds nowhere, `ieee` rounds rationals to
  binary32 and binary64 (round to nearest, ties to even; exponent range not modelled).
* `std::vector<float>` is a `List K`; an access outside the vector makes the embedded
  operation return `none`.
* `assert` is taken as enabled: a failed assertion ends the construction.
-/

namespace flowgraph

/-! ## Data model -/

/-- The fields of a `PolyphaseResampler` object that the source reads or writes:
those inherited from `MultiChannelResampler` (`mNumTaps`, `mCursor`, `mX`, `mSingleFrame`,
`mChannelCount`) and those of the polyphase variant (`mCoefficients`,
`mCoefficientCursor`, `mNumerator`, `mDenominator`, `mIntegerPhase`). -/
structure PolyphaseResampler (K : Type) where
  mNumTaps : Nat
  mChannelCount : Nat
  mCursor : Nat
  mX : List K
  mSingleFrame : List K
  mCoefficients : List K
  mCoefficientCursor : Nat
  mNumerator : Nat
  mDenominator : Nat
  mIntegerPhase : Nat
deriving DecidableEq

/-- The constant `kMaxCoefficients = 8 * 1024` of `MultiChannelResampler.h`. -/
def kMaxCoefficients : Nat := 8 * 1024

/-- Checked store `v[i] = x`: `none` when `i` is outside the vector. -/
def storeAt {K : Type} (v : List K) (i : Nat) (x : K) : Option (List K) :=
  if i < v.length then some (v.set i x) else none

/-- The loop `for (int i = 0; i < n; i++) body`, threading the loop state through the
iterations `i = 0, 1, ..., n - 1`; it fails as soon as one iteration fails. -/
def forLoop {σ : Type} (n : Nat) (body : Nat → σ → Option σ) (init : σ) : Option σ :=
  (List.range n).foldlM (fun st i => body i st) init

/-! ## readFrame -/

/-- Local state of the tap loop of `readFrame`: the pointer `coefficients` (as an index
into `mCoefficients`), the index `xIndex` into `mX`, and the accumulator. -/
structure TapLoop (K : Type) where
  coefficients : Nat
  xIndex : Nat
  mSingleFrame : List K
deriving DecidableEq

section Convolution

variable {K : Type} [Zero K] [Add K] [Mul K]

/-- First loop of `readFrame`: `mSingleFrame[channel] = 0.0` for every channel. -/
def clearAccumulator (channelCount : Nat) (acc : List K) : Option (List K) :=
  forLoop channelCount (fun channel a => storeAt a channel 0) acc

/-- Inner loop of `readFrame`:
`mSingleFrame[channel] += coefficient * xFrame[channel]` with `xFrame = &mX[xIndex]`. -/
def accumulateFrame (channelCount : Nat) (coefficient : K) (mX : List K) (xIndex : Nat)
    (acc : List K) : Option (List K) :=
  forLoop channelCount (fun channel a => do
    let x ← mX[xIndex + channel]?
    let old ← a[channel]?
    storeAt a channel (old + coefficient * x)) acc

/-- One iteration of the tap loop of `readFrame`: `coefficient = *coefficients++`, the
channel loop, then `xIndex -= getChannelCount()`.  The subtraction is on naturals; it
never truncates, since the loop starts at `(mCursor + mNumTaps) * channelCount` and runs
`mNumTaps` times (see `tapLoop_spec`). -/
def tapStep (s : PolyphaseResampler K) (st : TapLoop K) : Option (TapLoop K) := do
  let coefficient ← s.mCoefficients[st.coefficients]?
  let acc ← accumulateFrame s.mChannelCount coefficient s.mX st.xIndex st.mSingleFrame
  some { coefficients := st.coefficients + 1
         xIndex := st.xIndex - s.mChannelCount
         mSingleFrame := acc }

/-- Last loop of `readFrame`: `frame[channel] = mSingleFrame[channel]`. -/
def copyAccumulator (channelCount : Nat) (acc : List K) (frame : List K) :
    Option (List K) :=
  forLoop channelCount (fun channel f => do
    let v ← acc[channel]?
    storeAt f channel v) frame

/-- `PolyphaseResampler::readFrame(float *frame)`.  The argument `frame` is the caller's
output buffer; the result is the new object state and the new contents of the buffer.
`none` stands for an access outside a vector or for the remainder by an empty table
size. -/
def readFrame (s : PolyphaseResampler K) (frame : List K) :
    Option (PolyphaseResampler K × List K) := do
  let cleared ← clearAccumulator s.mChannelCount s.mSingleFrame
  let st ← forLoop s.mNumTaps (fun _ st => tapStep s st)
    { coefficients := s.mCoefficientCursor
      xIndex := (s.mCursor + s.mNumTaps) * s.mChannelCount
      mSingleFrame := cleared }
  if s.mCoefficients.length = 0 then none
  else
    let cursor := (s.mCoefficientCursor + s.mNumTaps) % s.mCoefficients.length
    let out ← copyAccumulator s.mChannelCount st.mSingleFrame frame
    some ({ s with mSingleFrame := st.mSingleFrame, mCoefficientCursor := cursor }, out)

/-- The state after `k` successive calls of `readFrame`, each writing into the buffer left
by the previous one, together with that buffer. -/
def readFrames : Nat → PolyphaseResampler K → List K → Option (PolyphaseResampler K × List K)
  | 0, s, frame => some (s, frame)
  | k + 1, s, frame => do
    let r ← readFrames k s frame
    readFrame r.1 r.2

end Convolution

/-! ## Coefficient generation and construction -/

/-- Modelled from the spec: the class `IntegerRatio` (header `IntegerRatio.h`, not part of
the source files).  Its contract is "reduce(a: positive int, b: positive int) →
(numerator, denominator) co-prime via exact integer GCD, no rounding". -/
def IntegerRatio.reduce (a b : Nat) : Nat × Nat :=
  (a / Nat.gcd a b, b / Nat.gcd a b)

/-- `std::vector::resize(n)`: keep the first `n` entries, pad with zeros up to length `n`. -/
def resize {K : Type} [Zero K] (v : List K) (n : Nat) : List K :=
  v.take n ++ List.replicate (n - v.length) 0

/-- The product of two `int` values as `std::vector::resize` receives it: the product is
taken modulo `2 ^ 32`; a result with the sign bit set is a negative `int`, whose
conversion to `size_t` exceeds every vector size, so that `resize` throws (`none`). -/
def intProductSize (a b : Nat) : Option Nat :=
  if (a * b) % 2 ^ 32 < 2 ^ 31 then some ((a * b) % 2 ^ 32) else none

/-- The roundings of the floating-point arithmetic, as maps on the exact carrier:
`toFloat` is the conversion to `float` (an assignment to a `float` variable), `toDouble`
the rounding of the result of an operation on `double`. -/
structure FloatingPoint (F : Type) where
  toFloat : F → F
  toDouble : F → F

/-- Exact arithmetic: no rounding. -/
def exactArithmetic {F : Type} : FloatingPoint F :=
  { toFloat := id, toDouble := id }

/-- Local state of the loops of `generateCoefficients`: the write index `cursor`, the
running `phase`, the table, and (ghost) the list of the indices written so far by
`mCoefficients.at(cursor++) = ...`, oldest first. -/
structure GenLoop (F : Type) where
  cursor : Nat
  phase : F
  mCoefficients : List F
  written : List Nat

/-- Local state of the tap loop of `generateCoefficients`: `tapPhase` and the part of the
outer state that the tap loop changes. -/
structure GenTapLoop (F : Type) where
  tapPhase : F
  cursor : Nat
  mCoefficients : List F
  written : List Nat

section Generation

variable {F : Type} [LinearOrderedField F] [FloorRing F]

/-- The loop `while (phase >= 1.0) { phase -= 1.0; }` of `generateCoefficients`. -/
def wrapPhase {F : Type} [LinearOrderedField F] [FloorRing F] (phase : F) : F :=
  if h : 1 ≤ phase then wrapPhase (phase - 1) else phase
termination_by ⌊phase⌋.toNat
decreasing_by
  have h1 : (1 : ℤ) ≤ ⌊phase⌋ := Int.le_floor.mpr (by simpa using h)
  rw [Int.floor_sub_one]
  omega

/-- Body of the tap loop of `generateCoefficients`:
`float radians = tapPhase * M_PI; mCoefficients.at(cursor++) =
calculateWindowedSinc(radians, spread); tapPhase += 1.0`.  Both operations are carried out
on `double` and their results are stored in `float` variables.  `pi` stands for `M_PI` and
`calculateWindowedSinc` for the static function of that name, declared in
`MultiChannelResampler.h` and defined outside the source files.  `vector::at` is range
checked. -/
def generateTap (fp : FloatingPoint F) (pi : F) (calculateWindowedSinc : F → Nat → F)
    (spread : Nat) (st : GenTapLoop F) : Option (GenTapLoop F) := do
  let radians := fp.toFloat (fp.toDouble (st.tapPhase * pi))
  let table ← storeAt st.mCoefficients st.cursor (calculateWindowedSinc radians spread)
  some { tapPhase := fp.toFloat (fp.toDouble (st.tapPhase + 1))
         cursor := st.cursor + 1
         mCoefficients := table
         written := st.written ++ [st.cursor] }

/-- The phase update at the end of an iteration of the outer loop of
`generateCoefficients`: `phase += phaseIncrement; while (phase >= 1.0) { phase -= 1.0; }`.
The sum is rounded to `double`; subtracting 1 from a `double` that is at least 1 is
exact. -/
def nextPhase (fp : FloatingPoint F) (phaseIncrement phase : F) : F :=
  wrapPhase (fp.toDouble (phase + phaseIncrement))

/-- Body of the outer loop of `generateCoefficients`: `float tapPhase = phase - spread`,
one row of `numTaps` coefficients, then the phase update. -/
def generateRow (fp : FloatingPoint F) (pi : F) (calculateWindowedSinc : F → Nat → F)
    (numTaps spread : Nat) (phaseIncrement : F) (st : GenLoop F) : Option (GenLoop F) := do
  let t ← forLoop numTaps (fun _ t => generateTap fp pi calculateWindowedSinc spread t)
    { tapPhase := fp.toFloat (fp.toDouble (st.phase - spread))
      cursor := st.cursor
      mCoefficients := st.mCoefficients
      written := st.written }
  some { cursor := t.cursor
         phase := nextPhase fp phaseIncrement st.phase
         mCoefficients := t.mCoefficients
         written := t.written }

/-- `PolyphaseResampler::generateCoefficients(inputRate, outputRate)`.  The result is the
updated object together with the (ghost) list of table indices written, in the order of
the writes; `none` stands for an exception: the length error of `resize` or a range error
of `vector::at`. -/
def generateCoefficients (fp : FloatingPoint F) (pi : F)
    (calculateWindowedSinc : F → Nat → F)
    (s : PolyphaseResampler F) (inputRate outputRate : Nat) :
    Option (PolyphaseResampler F × List Nat) := do
  let ratio := IntegerRatio.reduce inputRate outputRate
  let mNumerator := ratio.1
  let mDenominator := ratio.2
  let mIntegerPhase := mDenominator
  let size ← intProductSize s.mNumTaps ratio.2
  let table := resize s.mCoefficients size
  let phaseIncrement : F := fp.toDouble ((inputRate : F) / (outputRate : F))
  let spread := s.mNumTaps / 2
  let st ← forLoop mDenominator
    (fun _ st => generateRow fp pi calculateWindowedSinc s.mNumTaps spread phaseIncrement st)
    { cursor := 0, phase := 0, mCoefficients := table, written := [] }
  some ({ s with mNumerator := mNumerator, mDenominator := mDenominator,
                 mIntegerPhase := mIntegerPhase, mCoefficients := st.mCoefficients },
        st.written)

/-- Modelled from the spec: the constructor `MultiChannelResampler(numTaps, channelCount)`
of the base class and the initial values of the members of the polyphase variant, whose
definitions are not part of the source files.  The header gives `mCursor = 0`; the spec
gives a history buffer "sized to hold at least numTaps lookback frames plus lookahead"
(here `2 * numTaps` frames) and "one per-channel working buffer"; the coefficient table is
empty before generation, and the coefficient cursor starts at index 0, the first entry
that `generateCoefficients` writes "in the order they will be used by readFrame()". -/
def MultiChannelResampler.init (numTaps channelCount : Nat) : PolyphaseResampler F :=
  { mNumTaps := numTaps
    mChannelCount := channelCount
    mCursor := 0
    mX := List.replicate (channelCount * numTaps * 2) 0
    mSingleFrame := List.replicate channelCount 0
    mCoefficients := []
    mCoefficientCursor := 0
    mNumerator := 0
    mDenominator := 0
    mIntegerPhase := 0 }

/-- The ways in which construction can fail: the assertion on the tap count, or an
exception (length or range error) thrown while the table is sized and filled. -/
inductive ConstructionFailure where
  | tapCountAssertion
  | coefficientRangeError
deriving DecidableEq

/-- The constructor `PolyphaseResampler(numTaps, inputRate, outputRate, channelCount)`:
base-class constructor, `assert((numTaps % 4) == 0)`, then `generateCoefficients`. -/
def PolyphaseResampler.construct (fp : FloatingPoint F) (pi : F)
    (calculateWindowedSinc : F → Nat → F)
    (numTaps inputRate outputRate channelCount : Nat) :
    Except ConstructionFailure (PolyphaseResampler F) :=
  let base : PolyphaseResampler F := MultiChannelResampler.init numTaps channelCount
  if numTaps % 4 = 0 then
    match generateCoefficients fp pi calculateWindowedSinc base inputRate outputRate with
    | some r => Except.ok r.1
    | none => Except.error ConstructionFailure.coefficientRangeError
  else Except.error ConstructionFailure.tapCountAssertion

/-- The value of the variable `phase` of `generateCoefficients` at the start of iteration
`i` of its outer loop: `i` phase updates applied to the initial `phase = 0.0`. -/
def generationPhase (fp : FloatingPoint F) (inputRate outputRate : Nat) (i : Nat) : F :=
  (nextPhase fp (fp.toDouble ((inputRate : F) / (outputRate : F))))^[i] 0

/-- The value of the variable `tapPhase` of `generateCoefficients` at the start of
iteration `tap` of the tap loop of a row that starts with the given `phase`:
`float tapPhase = phase - spread`, then `tap` times `tapPhase += 1.0`. -/
def tapPhaseAt (fp : FloatingPoint F) (phase : F) (spread tap : Nat) : F :=
  (fun t => fp.toFloat (fp.toDouble (t + 1)))^[tap] (fp.toFloat (fp.toDouble (phase - spread)))

/-- The argument that `generateCoefficients` passes to `calculateWindowedSinc` in
iteration `tap` of such a row: `float radians = tapPhase * M_PI`. -/
def radiansAt (fp : FloatingPoint F) (pi phase : F) (spread tap : Nat) : F :=
  fp.toFloat (fp.toDouble (tapPhaseAt fp phase spread tap * pi))

/-- The phase sequence of the specification: `p 0 = 0` and
`p (i + 1) = p i + inputRate / outputRate` wrapped into `[0, 1)`. -/
def phaseSequence (inputRate outputRate : Nat) : Nat → F
  | 0 => 0
  | i + 1 => Int.fract (phaseSequence inputRate outputRate i + (inputRate : F) / (outputRate : F))

end Generation

/-- The value the convolution of `readFrame` is specified to produce in channel `c`:
the sum over the taps `i` of `coefficients[q + i] * history[(w + N - i) * C + c]`. -/
def convolution {K : Type} [Semiring K] (s : PolyphaseResampler K) (c : Nat) : K :=
  ∑ i in Finset.range s.mNumTaps,
    s.mCoefficients.getD (s.mCoefficientCursor + i) 0 *
      s.mX.getD ((s.mCursor + s.mNumTaps - i) * s.mChannelCount + c) 0


/-- The index ranges of `readFrame` are in bounds: the coefficient row
`[q, q + N)` lies inside the (non-empty) table, the history frames `w + 1 .. w + N`
lie inside `mX`, and the accumulator holds one entry per channel. -/
def InBounds {K : Type} (s : PolyphaseResampler K) : Prop :=
  s.mCoefficientCursor + s.mNumTaps ≤ s.mCoefficients.length ∧
  0 < s.mCoefficients.length ∧
  (s.mCursor + s.mNumTaps + 1) * s.mChannelCount ≤ s.mX.length ∧
  s.mChannelCount ≤ s.mSingleFrame.length

instance {K : Type} (s : PolyphaseResampler K) : Decidable (InBounds s) := by
  unfold InBounds
  infer_instance

/-- The value that the tap loop of `readFrame` accumulates for channel `c`, with the
operations of the sample type applied in the order of the code: starting from `0.0`, for
`i = 0, 1, ..., N - 1` add `coefficients[q + i] * history[(w + N - i) * C + c]`.  No law of
arithmetic is assumed of the operations. -/
def convolutionFold {K : Type} [Zero K] [Add K] [Mul K] (s : PolyphaseResampler K)
    (c : Nat) : K :=
  (List.range s.mNumTaps).foldl
    (fun acc i => acc + s.mCoefficients.getD (s.mCoefficientCursor + i) 0 *
      s.mX.getD ((s.mCursor + s.mNumTaps - i) * s.mChannelCount + c) 0) 0


/-- The states reachable from `s0` by any number of `readFrame` calls, each with an
arbitrary output buffer. -/
inductive ReachableByReads {K : Type} [Zero K] [Add K] [Mul K] (s0 : PolyphaseResampler K) :
    PolyphaseResampler K → Prop where
  | start : ReachableByReads s0 s0
  | read {s t : PolyphaseResampler K} {frame out : List K} :
      ReachableByReads s0 s → readFrame s frame = some (t, out) → ReachableByReads s0 t

/-- The value of the macro `M_PI` of `<math.h>`: the double nearest to π, which is the
rational number `884279719003555 / 2 ^ 48`. -/
def M_PI : ℚ := 884279719003555 / 281474976710656

/-- A stand-in for `calculateWindowedSinc` that returns the argument it is called with,
so that a table entry shows the argument the generator passed for it. -/
def passedArgument {F : Type} (radians : F) (_spread : Nat) : F := radians

/-- A small resampler state over the integers: two taps, two channels, two rows. -/
def sampleState : PolyphaseResampler ℤ :=
  { mNumTaps := 2
    mChannelCount := 2
    mCursor := 1
    mX := [1, 2, 3, 4, 5, 6, 7, 8]
    mSingleFrame := [9, 9]
    mCoefficients := [10, 100, 1000, 10000]
    mCoefficientCursor := 2
    mNumerator := 1
    mDenominator := 2
    mIntegerPhase := 2 }

/-- The state that `readFrame` leaves when called on `sampleState`. -/
def sampleStateRead : PolyphaseResampler ℤ :=
  { sampleState with mSingleFrame := [57000, 68000], mCoefficientCursor := 0 }


/-! ## Iteration counts of generateCoefficients -/

section CountedGeneration

variable {F : Type} [LinearOrderedField F] [FloorRing F]

end CountedGeneration

/-! ## Read accesses of readFrame -/

/-- A read that `readFrame` makes of the coefficient table or of the history buffer, with
the index it reads. -/
inductive ReadAccess where
  | coefficient (index : Nat)
  | history (index : Nat)
deriving DecidableEq

/-- The index range that an access must lie in: a coefficient read within the row
`[q, q + N)` inside the table, a history read within the frames
`[(w + 1) * C, (w + N + 1) * C)` inside the history buffer. -/
def ReadAccess.InRange {K : Type} (s : PolyphaseResampler K) : ReadAccess → Prop
  | ReadAccess.coefficient j =>
      s.mCoefficientCursor ≤ j ∧ j < s.mCoefficientCursor + s.mNumTaps ∧
        j < s.mCoefficients.length
  | ReadAccess.history j =>
      (s.mCursor + 1) * s.mChannelCount ≤ j ∧
        j < (s.mCursor + s.mNumTaps + 1) * s.mChannelCount ∧ j < s.mX.length

section TracedConvolution

variable {K : Type} [Zero K] [Add K] [Mul K]

/-- `accumulateFrame` with a (ghost) log: every read `xFrame[channel]` appends the index
`xIndex + channel` it reads from `mX`. -/
def accumulateFrameTraced (channelCount : Nat) (coefficient : K) (mX : List K)
    (xIndex : Nat) (st : List K × List ReadAccess) : Option (List K × List ReadAccess) :=
  forLoop channelCount (fun channel st => do
    let x ← mX[xIndex + channel]?
    let old ← st.1[channel]?
    let acc ← storeAt st.1 channel (old + coefficient * x)
    some (acc, st.2 ++ [ReadAccess.history (xIndex + channel)])) st

/-- `tapStep` with a (ghost) log: the read `*coefficients++` appends the index it reads
from `mCoefficients`, then the channel loop appends its history reads. -/
def tapStepTraced (s : PolyphaseResampler K) (st : TapLoop K × List ReadAccess) :
    Option (TapLoop K × List ReadAccess) := do
  let coefficient ← s.mCoefficients[st.1.coefficients]?
  let r ← accumulateFrameTraced s.mChannelCount coefficient s.mX st.1.xIndex
    (st.1.mSingleFrame, st.2 ++ [ReadAccess.coefficient st.1.coefficients])
  some ({ coefficients := st.1.coefficients + 1
          xIndex := st.1.xIndex - s.mChannelCount
          mSingleFrame := r.1 }, r.2)

/-- `readFrame` with a (ghost) log of its reads of the coefficient table and of the
history buffer, in program order. -/
def readFrameTraced (s : PolyphaseResampler K) (frame : List K) :
    Option ((PolyphaseResampler K × List K) × List ReadAccess) := do
  let cleared ← clearAccumulator s.mChannelCount s.mSingleFrame
  let st ← forLoop s.mNumTaps (fun _ st => tapStepTraced s st)
    ({ coefficients := s.mCoefficientCursor
       xIndex := (s.mCursor + s.mNumTaps) * s.mChannelCount
       mSingleFrame := cleared }, [])
  if s.mCoefficients.length = 0 then none
  else
    let cursor := (s.mCoefficientCursor + s.mNumTaps) % s.mCoefficients.length
    let out ← copyAccumulator s.mChannelCount st.1.mSingleFrame frame
    some (({ s with mSingleFrame := st.1.mSingleFrame, mCoefficientCursor := cursor }, out),
      st.2)

end TracedConvolution

/-! ## Phase state and the write/read protocol -/

/-- The phase state of the data model: the reduced ratio and the integer phase
accumulator. -/
structure PhaseState where
  mNumerator : Nat
  mDenominator : Nat
  mIntegerPhase : Nat
deriving DecidableEq

/-- The phase state of a resampler object. -/
def PolyphaseResampler.phaseState {K : Type} (s : PolyphaseResampler K) : PhaseState :=
  { mNumerator := s.mNumerator
    mDenominator := s.mDenominator
    mIntegerPhase := s.mIntegerPhase }

/-- Modelled from the spec: `isWriteNeeded()`, pure virtual in `MultiChannelResampler.h` and
defined outside the source files.  The spec derives its value "from the phase/ratio
state": "whenever the accumulator reaches or exceeds the denominator it ... signals that
additional input frames are required — this is exactly what `isWriteNeeded` reports". -/
def PhaseState.isWriteNeeded (p : PhaseState) : Bool :=
  decide (p.mDenominator ≤ p.mIntegerPhase)

/-- Modelled from the spec: the effect on the phase state of `readNextFrame`, that is of
`readFrame` (which leaves the phase state alone) followed by `advanceRead()`, pure virtual
in `MultiChannelResampler.h` and defined outside the source files: "Read-side advance
updates the phase accumulator by the reduced ratio's numerator". -/
def PhaseState.readNextFrame (p : PhaseState) : PhaseState :=
  { p with mIntegerPhase := p.mIntegerPhase + p.mNumerator }

/-- Modelled from the spec: the effect on the phase state of `writeNextFrame`, that is of
`writeFrame` followed by `advanceWrite()`, both defined outside the source files.  The
input frame that the accumulator asks for when it "reaches or exceeds the denominator" is
the one for which the spec "subtracts the denominator"; the protocol writes only when
`isWriteNeeded` holds, so the subtraction on naturals does not truncate. -/
def PhaseState.writeNextFrame (p : PhaseState) : PhaseState :=
  { p with mIntegerPhase := p.mIntegerPhase - p.mDenominator }

/-- A run of the protocol: the phase state and the numbers of `readNextFrame` and
`writeNextFrame` calls made so far. -/
structure Drive where
  phase : PhaseState
  reads : Nat
  writes : Nat
deriving DecidableEq

/-- One step of the protocol of the spec: call `writeNextFrame` when `isWriteNeeded()` is
true and `readNextFrame` otherwise. -/
def driveStep (d : Drive) : Drive :=
  if d.phase.isWriteNeeded then
    { phase := d.phase.writeNextFrame, reads := d.reads, writes := d.writes + 1 }
  else
    { phase := d.phase.readNextFrame, reads := d.reads + 1, writes := d.writes }

/-- `n` steps of the protocol. -/
def drive (n : Nat) (d : Drive) : Drive :=
  driveStep^[n] d

/-! ## IEEE 754 rounding on the rationals -/

/-- Rounding of a rational to the nearest integer, ties to even. -/
def roundHalfEven (q : ℚ) : ℤ :=
  if q - ⌊q⌋ < 1 / 2 then ⌊q⌋
  else if 1 / 2 < q - ⌊q⌋ then ⌊q⌋ + 1
  else if ⌊q⌋ % 2 = 0 then ⌊q⌋ else ⌊q⌋ + 1

/-- Rounding of a rational to the nearest binary floating-point number with a significand
of `bits` bits, ties to even (exponent range unbounded: no overflow, no subnormals): with
`2 ^ e ≤ |x| < 2 ^ (e + 1)` the result is a multiple of `2 ^ (e - (bits - 1))`. -/
def roundToPrecision (bits : Nat) (x : ℚ) : ℚ :=
  if x = 0 then 0
  else
    (roundHalfEven (x / (2 : ℚ) ^ (Int.log 2 |x| - ((bits : ℤ) - 1))) : ℚ) *
      (2 : ℚ) ^ (Int.log 2 |x| - ((bits : ℤ) - 1))

/-- The roundings of IEEE 754 arithmetic: `float` is binary32 (24-bit significand),
`double` is binary64 (53-bit significand). -/
def ieee : FloatingPoint ℚ :=
  { toFloat := roundToPrecision 24, toDouble := roundToPrecision 53 }

/-! # Theorems -/

/-! ## Loop rules -/

theorem forLoop_zero {σ : Type} (body : Nat → σ → Option σ) (init : σ) :
    forLoop 0 body init = some init := rfl

theorem forLoop_succ {σ : Type} (n : Nat) (body : Nat → σ → Option σ) (init : σ) :
    forLoop (n + 1) body init = (forLoop n body init).bind (body n) := by
  unfold forLoop
  rw [List.range_succ, List.foldlM_append]
  cases h : List.foldlM (fun st i => body i st) init (List.range n) <;> simp [h]

/-- Total-correctness rule for `forLoop`: an invariant that holds initially and is
re-established by every iteration (which must not fail) holds of the final state. -/
theorem forLoop_invariant {σ : Type} (P : Nat → σ → Prop) (n : Nat)
    (body : Nat → σ → Option σ) (init : σ) (h0 : P 0 init)
    (hstep : ∀ i st, i < n → P i st → ∃ st2, body i st = some st2 ∧ P (i + 1) st2) :
    ∃ st, forLoop n body init = some st ∧ P n st := by
  induction n with
  | zero => exact ⟨init, rfl, h0⟩
  | succ n ih =>
    obtain ⟨st, hst, hP⟩ := ih (fun i st hi hp => hstep i st (Nat.lt_succ_of_lt hi) hp)
    obtain ⟨st2, hb, hP2⟩ := hstep n st (Nat.lt_succ_self n) hP
    exact ⟨st2, by rw [forLoop_succ, hst]; exact hb, hP2⟩

/-- Partial-correctness rule for `forLoop`: a property of the loop state that every
successful iteration preserves is preserved by the loop. -/
theorem forLoop_preserves {σ : Type} (P : σ → Prop) (n : Nat)
    (body : Nat → σ → Option σ) (init st : σ) (h0 : P init)
    (hstep : ∀ i a b, P a → body i a = some b → P b)
    (h : forLoop n body init = some st) : P st := by
  induction n generalizing st with
  | zero =>
    rw [forLoop_zero] at h
    cases h
    exact h0
  | succ n ih =>
    rw [forLoop_succ] at h
    obtain ⟨a, ha, hb⟩ := Option.bind_eq_some.mp h
    exact hstep n a st (ih a ha) hb

/-- Index-aware partial-correctness rule for `forLoop`. -/
theorem forLoop_invariant_of_some {σ : Type} (P : Nat → σ → Prop) (n : Nat)
    (body : Nat → σ → Option σ) (init st : σ) (h0 : P 0 init)
    (hstep : ∀ i a b, i < n → P i a → body i a = some b → P (i + 1) b)
    (h : forLoop n body init = some st) : P n st := by
  induction n generalizing st with
  | zero =>
    rw [forLoop_zero] at h
    cases h
    exact h0
  | succ n ih =>
    rw [forLoop_succ] at h
    obtain ⟨a, ha, hb⟩ := Option.bind_eq_some.mp h
    exact hstep n a st (Nat.lt_succ_self n)
      (ih a (fun i a b hi => hstep i a b (Nat.lt_succ_of_lt hi)) ha) hb

/-- Erasure of instrumentation: when every iteration of an instrumented body projects to
the iteration of the plain body, the instrumented loop projects to the plain loop. -/
theorem forLoop_project {σ τ : Type} (proj : τ → σ) (body : Nat → σ → Option σ)
    (body2 : Nat → τ → Option τ)
    (hproj : ∀ i t, (body2 i t).map proj = body i (proj t)) (n : Nat) (init : τ) :
    (forLoop n body2 init).map proj = forLoop n body (proj init) := by
  induction n with
  | zero => rfl
  | succ n ih =>
    rw [forLoop_succ, forLoop_succ, ← ih]
    cases forLoop n body2 init with
    | none => rfl
    | some t => exact hproj n t

theorem storeAt_eq_some {K : Type} (v : List K) (i : Nat) (x : K) (h : i < v.length) :
    storeAt v i x = some (v.set i x) := by
  simp [storeAt, h]

theorem storeAt_length {K : Type} {v w : List K} {i : Nat} {x : K}
    (h : storeAt v i x = some w) : w.length = v.length := by
  unfold storeAt at h
  split at h
  · cases h
    simp
  · cases h

theorem getElem?_eq_some_getD {K : Type} (v : List K) (i : Nat) (d : K) (h : i < v.length) :
    v[i]? = some (v.getD i d) := by
  rw [List.getD_eq_getElem?_getD, List.getElem?_eq_getElem h]
  rfl

/-! ## The loops of readFrame -/

section ConvolutionProofs

variable {K : Type} [Zero K] [Add K] [Mul K]

omit [Add K] [Mul K] in
theorem clearAccumulator_spec (C : Nat) (acc : List K) (h : C ≤ acc.length) :
    ∃ a, clearAccumulator C acc = some a ∧ a.length = acc.length ∧
      ∀ c, c < C → a[c]? = some 0 := by
  unfold clearAccumulator
  refine forLoop_invariant
    (fun i a => a.length = acc.length ∧ ∀ c, c < i → a[c]? = some 0) C _ acc
    ⟨rfl, fun c hc => absurd hc (Nat.not_lt_zero c)⟩ ?_
  intro i a hi ⟨hlen, hz⟩
  have hia : i < a.length := by omega
  refine ⟨a.set i 0, storeAt_eq_some a i 0 hia, by simp [hlen], ?_⟩
  intro c hc
  by_cases hci : c = i
  · subst hci
    simp [hia]
  · rw [List.getElem?_set_ne (Ne.symm hci)]
    exact hz c (by omega)

theorem accumulateFrame_spec (C : Nat) (coefficient : K) (mX : List K) (xIndex : Nat)
    (acc : List K) (hacc : C ≤ acc.length) (hx : xIndex + C ≤ mX.length) :
    ∃ a, accumulateFrame C coefficient mX xIndex acc = some a ∧ a.length = acc.length ∧
      ∀ c, c < C → a[c]? = some (acc.getD c 0 + coefficient * mX.getD (xIndex + c) 0) := by
  unfold accumulateFrame
  obtain ⟨a, ha, hlen, hlt, -⟩ := forLoop_invariant
    (fun i a => a.length = acc.length ∧
      (∀ c, c < i → a[c]? = some (acc.getD c 0 + coefficient * mX.getD (xIndex + c) 0)) ∧
      ∀ c, i ≤ c → a[c]? = acc[c]?) C
    (fun channel a => do
      let x ← mX[xIndex + channel]?
      let old ← a[channel]?
      storeAt a channel (old + coefficient * x)) acc
    ⟨rfl, fun c hc => absurd hc (Nat.not_lt_zero c), fun _ _ => rfl⟩ (by
      intro i a hi ⟨hlen, hlt, hge⟩
      have hia : i < a.length := by omega
      have hix : xIndex + i < mX.length := by omega
      have hold : a[i]? = some (acc.getD i 0) := by
        rw [hge i (le_refl i)]
        exact getElem?_eq_some_getD acc i 0 (by omega)
      refine ⟨a.set i (acc.getD i 0 + coefficient * mX.getD (xIndex + i) 0), ?_,
        by simp [hlen], ?_, ?_⟩
      · dsimp only
        rw [getElem?_eq_some_getD mX (xIndex + i) 0 hix, hold]
        exact storeAt_eq_some a i _ hia
      · intro c hc
        by_cases hci : c = i
        · subst hci
          simp [hia]
        · rw [List.getElem?_set_ne (Ne.symm hci)]
          exact hlt c (by omega)
      · intro c hc
        rw [List.getElem?_set_ne (by omega)]
        exact hge c (by omega))
  exact ⟨a, ha, hlen, hlt⟩

omit [Add K] [Mul K] in
theorem copyAccumulator_spec (C : Nat) (acc frame : List K) (hacc : C ≤ acc.length)
    (hf : C ≤ frame.length) :
    ∃ out, copyAccumulator C acc frame = some out ∧ out.length = frame.length ∧
      (∀ c, c < C → out[c]? = acc[c]?) ∧ ∀ c, C ≤ c → out[c]? = frame[c]? := by
  unfold copyAccumulator
  refine forLoop_invariant
    (fun i f => f.length = frame.length ∧ (∀ c, c < i → f[c]? = acc[c]?) ∧
      ∀ c, i ≤ c → f[c]? = frame[c]?) C _ frame
    ⟨rfl, fun c hc => absurd hc (Nat.not_lt_zero c), fun _ _ => rfl⟩ ?_
  intro i f hi ⟨hlen, hlt, hge⟩
  have hif : i < f.length := by omega
  have hacci : acc[i]? = some (acc.getD i 0) := getElem?_eq_some_getD acc i 0 (by omega)
  refine ⟨f.set i (acc.getD i 0), ?_, by simp [hlen], ?_, ?_⟩
  · dsimp only
    rw [hacci]
    exact storeAt_eq_some f i _ hif
  · intro c hc
    by_cases hci : c = i
    · rw [hci, List.getElem?_set_self hif, hacci]
    · rw [List.getElem?_set_ne (Ne.symm hci)]
      exact hlt c (by omega)
  · intro c hc
    rw [List.getElem?_set_ne (by omega)]
    exact hge c (by omega)

end ConvolutionProofs

section ReadFrameProofs

variable {K : Type} [Semiring K]

/-- Invariant of the tap loop of `readFrame` after `n` iterations. -/
theorem tapLoop_spec (s : PolyphaseResampler K) (acc0 : List K)
    (hq : s.mCoefficientCursor + s.mNumTaps ≤ s.mCoefficients.length)
    (hx : (s.mCursor + s.mNumTaps + 1) * s.mChannelCount ≤ s.mX.length)
    (hacc : s.mChannelCount ≤ acc0.length)
    (hzero : ∀ c, c < s.mChannelCount → acc0[c]? = some 0) :
    ∃ st, forLoop s.mNumTaps (fun _ st => tapStep s st)
        { coefficients := s.mCoefficientCursor
          xIndex := (s.mCursor + s.mNumTaps) * s.mChannelCount
          mSingleFrame := acc0 } = some st ∧
      st.coefficients = s.mCoefficientCursor + s.mNumTaps ∧
      st.xIndex = s.mCursor * s.mChannelCount ∧
      st.mSingleFrame.length = acc0.length ∧
      ∀ c, c < s.mChannelCount → st.mSingleFrame[c]? = some (convolution s c) := by
  obtain ⟨st, hst, h1, h2, h3, h4⟩ := forLoop_invariant
    (fun n (st : TapLoop K) =>
      st.coefficients = s.mCoefficientCursor + n ∧
      st.xIndex = (s.mCursor + s.mNumTaps - n) * s.mChannelCount ∧
      st.mSingleFrame.length = acc0.length ∧
      ∀ c, c < s.mChannelCount → st.mSingleFrame[c]? = some (∑ i in Finset.range n,
        s.mCoefficients.getD (s.mCoefficientCursor + i) 0 *
          s.mX.getD ((s.mCursor + s.mNumTaps - i) * s.mChannelCount + c) 0))
    s.mNumTaps (fun _ st => tapStep s st)
    { coefficients := s.mCoefficientCursor
      xIndex := (s.mCursor + s.mNumTaps) * s.mChannelCount
      mSingleFrame := acc0 }
    ⟨rfl, rfl, rfl, fun c hc => by simpa using hzero c hc⟩ (by
      intro n st hn ⟨hc, hxi, hlen, hsum⟩
      have hcoef : s.mCoefficients[st.coefficients]? =
          some (s.mCoefficients.getD (s.mCoefficientCursor + n) 0) := by
        rw [hc]
        exact getElem?_eq_some_getD _ _ 0 (by omega)
      have hk : s.mCursor + s.mNumTaps - n = (s.mCursor + s.mNumTaps - (n + 1)) + 1 := by
        omega
      have hxb : st.xIndex + s.mChannelCount ≤ s.mX.length := by
        rw [hxi]
        calc (s.mCursor + s.mNumTaps - n) * s.mChannelCount + s.mChannelCount
            = (s.mCursor + s.mNumTaps - n + 1) * s.mChannelCount := by rw [Nat.succ_mul]
          _ ≤ (s.mCursor + s.mNumTaps + 1) * s.mChannelCount :=
              Nat.mul_le_mul_right _ (by omega)
          _ ≤ s.mX.length := hx
      obtain ⟨a, ha, halen, hval⟩ := accumulateFrame_spec s.mChannelCount
        (s.mCoefficients.getD (s.mCoefficientCursor + n) 0) s.mX st.xIndex st.mSingleFrame
        (by omega) hxb
      refine ⟨{ coefficients := st.coefficients + 1
                xIndex := st.xIndex - s.mChannelCount
                mSingleFrame := a }, ?_, ?_, ?_, ?_, ?_⟩
      · show tapStep s st = _
        unfold tapStep
        rw [hcoef]
        show (accumulateFrame s.mChannelCount _ s.mX st.xIndex st.mSingleFrame).bind _ = _
        rw [ha]
        rfl
      · show st.coefficients + 1 = _
        omega
      · show st.xIndex - s.mChannelCount = _
        rw [hxi, hk, Nat.succ_mul]
        omega
      · show a.length = _
        omega
      · intro c hc2
        show a[c]? = _
        rw [hval c hc2, Finset.sum_range_succ, hxi]
        have hold : st.mSingleFrame.getD c 0 = ∑ i in Finset.range n,
            s.mCoefficients.getD (s.mCoefficientCursor + i) 0 *
              s.mX.getD ((s.mCursor + s.mNumTaps - i) * s.mChannelCount + c) 0 := by
          rw [List.getD_eq_getElem?_getD, hsum c hc2]
          rfl
        rw [hold])
  refine ⟨st, hst, h1, ?_, h3, h4⟩
  rw [h2]
  congr 1
  omega

/-- What `readFrame` does when its index ranges are in bounds: it returns, the new state
differs from the old one only in the accumulator and the coefficient cursor, and every
channel of the output frame holds the convolution sum. -/
theorem readFrame_spec (s : PolyphaseResampler K) (frame : List K) (hb : InBounds s)
    (hf : s.mChannelCount ≤ frame.length) :
    ∃ acc out, readFrame s frame =
        some ({ s with mSingleFrame := acc
                       mCoefficientCursor :=
                         (s.mCoefficientCursor + s.mNumTaps) % s.mCoefficients.length }, out) ∧
      acc.length = s.mSingleFrame.length ∧ out.length = frame.length ∧
      (∀ c, c < s.mChannelCount → out[c]? = some (convolution s c)) ∧
      ∀ c, s.mChannelCount ≤ c → out[c]? = frame[c]? := by
  obtain ⟨hq, hpos, hx, hacc⟩ := hb
  obtain ⟨a0, ha0, hlen0, hz⟩ := clearAccumulator_spec s.mChannelCount s.mSingleFrame hacc
  obtain ⟨st, hst, -, -, hlen, hsum⟩ := tapLoop_spec s a0 hq hx (by omega) hz
  obtain ⟨out, hout, holen, hlt, hge⟩ := copyAccumulator_spec s.mChannelCount
    st.mSingleFrame frame (by omega) hf
  refine ⟨st.mSingleFrame, out, ?_, by omega, holen, ?_, hge⟩
  · unfold readFrame
    rw [ha0]
    show (forLoop s.mNumTaps (fun _ st => tapStep s st) _).bind _ = _
    rw [hst]
    show (if s.mCoefficients.length = 0 then none else _) = _
    rw [if_neg (by omega)]
    show (copyAccumulator s.mChannelCount st.mSingleFrame frame).bind _ = _
    rw [hout]
    rfl
  · intro c hc
    rw [hlt c hc, hsum c hc]

/-- Frame rule of `readFrame`: whenever it returns, the new state is the old one with a
new accumulator and the advanced coefficient cursor. -/
theorem readFrame_frame (s t : PolyphaseResampler K) (frame out : List K)
    (h : readFrame s frame = some (t, out)) :
    t = { s with mSingleFrame := t.mSingleFrame
                 mCoefficientCursor :=
                   (s.mCoefficientCursor + s.mNumTaps) % s.mCoefficients.length } := by
  unfold readFrame at h
  obtain ⟨a0, -, h⟩ := Option.bind_eq_some.mp h
  obtain ⟨st, -, h⟩ := Option.bind_eq_some.mp h
  split at h
  · cases h
  · obtain ⟨o, -, h⟩ := Option.bind_eq_some.mp h
    cases h
    rfl

end ReadFrameProofs

section ReadFrameFoldProofs

variable {K : Type} [Zero K] [Add K] [Mul K]

/-- Invariant of the tap loop of `readFrame`, for arbitrary operations of the sample
type: the accumulator holds the left fold of the products, in the order of the code. -/
theorem tapLoop_fold_spec (s : PolyphaseResampler K) (acc0 : List K)
    (hq : s.mCoefficientCursor + s.mNumTaps ≤ s.mCoefficients.length)
    (hx : (s.mCursor + s.mNumTaps + 1) * s.mChannelCount ≤ s.mX.length)
    (hacc : s.mChannelCount ≤ acc0.length)
    (hzero : ∀ c, c < s.mChannelCount → acc0[c]? = some 0) :
    ∃ st, forLoop s.mNumTaps (fun _ st => tapStep s st)
        { coefficients := s.mCoefficientCursor
          xIndex := (s.mCursor + s.mNumTaps) * s.mChannelCount
          mSingleFrame := acc0 } = some st ∧
      st.mSingleFrame.length = acc0.length ∧
      ∀ c, c < s.mChannelCount → st.mSingleFrame[c]? = some (convolutionFold s c) := by
  obtain ⟨st, hst, -, -, h3, h4⟩ := forLoop_invariant
    (fun n (st : TapLoop K) =>
      st.coefficients = s.mCoefficientCursor + n ∧
      st.xIndex = (s.mCursor + s.mNumTaps - n) * s.mChannelCount ∧
      st.mSingleFrame.length = acc0.length ∧
      ∀ c, c < s.mChannelCount → st.mSingleFrame[c]? = some ((List.range n).foldl
        (fun acc i => acc + s.mCoefficients.getD (s.mCoefficientCursor + i) 0 *
          s.mX.getD ((s.mCursor + s.mNumTaps - i) * s.mChannelCount + c) 0) 0))
    s.mNumTaps (fun _ st => tapStep s st)
    { coefficients := s.mCoefficientCursor
      xIndex := (s.mCursor + s.mNumTaps) * s.mChannelCount
      mSingleFrame := acc0 }
    ⟨rfl, rfl, rfl, fun c hc => hzero c hc⟩ (by
      intro n st hn ⟨hc, hxi, hlen, hsum⟩
      have hcoef : s.mCoefficients[st.coefficients]? =
          some (s.mCoefficients.getD (s.mCoefficientCursor + n) 0) := by
        rw [hc]
        exact getElem?_eq_some_getD _ _ 0 (by omega)
      have hk : s.mCursor + s.mNumTaps - n = (s.mCursor + s.mNumTaps - (n + 1)) + 1 := by
        omega
      have hxb : st.xIndex + s.mChannelCount ≤ s.mX.length := by
        rw [hxi]
        calc (s.mCursor + s.mNumTaps - n) * s.mChannelCount + s.mChannelCount
            = (s.mCursor + s.mNumTaps - n + 1) * s.mChannelCount := by rw [Nat.succ_mul]
          _ ≤ (s.mCursor + s.mNumTaps + 1) * s.mChannelCount :=
              Nat.mul_le_mul_right _ (by omega)
          _ ≤ s.mX.length := hx
      obtain ⟨a, ha, halen, hval⟩ := accumulateFrame_spec s.mChannelCount
        (s.mCoefficients.getD (s.mCoefficientCursor + n) 0) s.mX st.xIndex st.mSingleFrame
        (by omega) hxb
      refine ⟨{ coefficients := st.coefficients + 1
                xIndex := st.xIndex - s.mChannelCount
                mSingleFrame := a }, ?_, ?_, ?_, ?_, ?_⟩
      · show tapStep s st = _
        unfold tapStep
        rw [hcoef]
        show (accumulateFrame s.mChannelCount _ s.mX st.xIndex st.mSingleFrame).bind _ = _
        rw [ha]
        rfl
      · show st.coefficients + 1 = _
        omega
      · show st.xIndex - s.mChannelCount = _
        rw [hxi, hk, Nat.succ_mul]
        omega
      · show a.length = _
        omega
      · intro c hc2
        show a[c]? = _
        rw [hval c hc2, List.range_succ, List.foldl_append, hxi]
        have hold : st.mSingleFrame.getD c 0 = (List.range n).foldl
            (fun acc i => acc + s.mCoefficients.getD (s.mCoefficientCursor + i) 0 *
              s.mX.getD ((s.mCursor + s.mNumTaps - i) * s.mChannelCount + c) 0) 0 := by
          rw [List.getD_eq_getElem?_getD, hsum c hc2]
          rfl
        rw [hold]
        rfl)
  exact ⟨st, hst, h3, h4⟩

/-- What `readFrame` does when its index ranges are in bounds, for arbitrary operations of
the sample type: it returns, changes only the accumulator and the coefficient cursor, and
every channel of the output frame holds the fold of the code. -/
theorem readFrame_fold_spec (s : PolyphaseResampler K) (frame : List K) (hb : InBounds s)
    (hf : s.mChannelCount ≤ frame.length) :
    ∃ acc out, readFrame s frame =
        some ({ s with mSingleFrame := acc
                       mCoefficientCursor :=
                         (s.mCoefficientCursor + s.mNumTaps) % s.mCoefficients.length }, out) ∧
      acc.length = s.mSingleFrame.length ∧ out.length = frame.length ∧
      (∀ c, c < s.mChannelCount → out[c]? = some (convolutionFold s c)) ∧
      ∀ c, s.mChannelCount ≤ c → out[c]? = frame[c]? := by
  obtain ⟨hq, hpos, hx, hacc⟩ := hb
  obtain ⟨a0, ha0, hlen0, hz⟩ := clearAccumulator_spec s.mChannelCount s.mSingleFrame hacc
  obtain ⟨st, hst, hlen, hsum⟩ := tapLoop_fold_spec s a0 hq hx (by omega) hz
  obtain ⟨out, hout, holen, hlt, hge⟩ := copyAccumulator_spec s.mChannelCount
    st.mSingleFrame frame (by omega) hf
  refine ⟨st.mSingleFrame, out, ?_, by omega, holen, ?_, hge⟩
  · unfold readFrame
    rw [ha0]
    show (forLoop s.mNumTaps (fun _ st => tapStep s st) _).bind _ = _
    rw [hst]
    show (if s.mCoefficients.length = 0 then none else _) = _
    rw [if_neg (by omega)]
    show (copyAccumulator s.mChannelCount st.mSingleFrame frame).bind _ = _
    rw [hout]
    rfl
  · intro c hc
    rw [hlt c hc, hsum c hc]

end ReadFrameFoldProofs

/-! ## Phase arithmetic -/

section PhaseProofs

variable {F : Type} [LinearOrderedField F] [FloorRing F]

theorem wrapPhase_of_lt_one (p : F) (h : p < 1) : wrapPhase p = p := by
  rw [wrapPhase, dif_neg (not_le.mpr h)]

theorem wrapPhase_of_one_le (p : F) (h : 1 ≤ p) : wrapPhase p = wrapPhase (p - 1) := by
  rw [wrapPhase, dif_pos h]

/-- The wrap loop computes the fractional part of a non-negative phase. -/
theorem wrapPhase_eq_fract (p : F) (h : 0 ≤ p) : wrapPhase p = Int.fract p := by
  obtain ⟨n, hn⟩ : ∃ n, ⌊p⌋.toNat = n := ⟨_, rfl⟩
  induction n using Nat.strong_induction_on generalizing p with
  | _ n ih =>
    by_cases h1 : 1 ≤ p
    · have hfl : (1 : ℤ) ≤ ⌊p⌋ := Int.le_floor.mpr (by simpa using h1)
      rw [wrapPhase_of_one_le p h1,
        ih (⌊p - 1⌋.toNat) (by rw [Int.floor_sub_one]; omega) (p - 1) (by linarith) rfl,
        Int.fract_sub_one]
    · have hlt : p < 1 := not_le.mp h1
      rw [wrapPhase_of_lt_one p hlt]
      symm
      rw [Int.fract_eq_iff]
      exact ⟨h, hlt, 0, by simp⟩

theorem phaseSequence_nonneg (a b i : Nat) : (0 : F) ≤ phaseSequence a b i := by
  cases i with
  | zero => exact le_refl _
  | succ i => exact Int.fract_nonneg _

/-- In exact arithmetic the phase variable of the code follows the phase sequence of the
specification. -/
theorem generationPhase_eq_phaseSequence (a b i : Nat) :
    (generationPhase exactArithmetic a b i : F) = phaseSequence a b i := by
  induction i with
  | zero => rfl
  | succ i ih =>
    have hinc : (0 : F) ≤ (a : F) / (b : F) := div_nonneg (Nat.cast_nonneg a) (Nat.cast_nonneg b)
    unfold generationPhase at ih ⊢
    rw [Function.iterate_succ_apply', ih]
    show wrapPhase (phaseSequence a b i + (a : F) / (b : F)) = Int.fract _
    exact wrapPhase_eq_fract _ (add_nonneg (phaseSequence_nonneg a b i) hinc)

/-- The wrap loop leaves a phase below 1, and a non-negative one when it starts from a
non-negative phase. -/
theorem wrapPhase_lt_one (p : F) : wrapPhase p < 1 := by
  obtain ⟨n, hn⟩ : ∃ n, ⌊p⌋.toNat = n := ⟨_, rfl⟩
  induction n using Nat.strong_induction_on generalizing p with
  | _ n ih =>
    by_cases h1 : 1 ≤ p
    · have hfl : (1 : ℤ) ≤ ⌊p⌋ := Int.le_floor.mpr (by simpa using h1)
      rw [wrapPhase_of_one_le p h1]
      exact ih (⌊p - 1⌋.toNat) (by rw [Int.floor_sub_one]; omega) (p - 1) rfl
    · rw [wrapPhase_of_lt_one p (not_le.mp h1)]
      exact not_le.mp h1

theorem wrapPhase_nonneg (p : F) (h : 0 ≤ p) : 0 ≤ wrapPhase p := by
  rw [wrapPhase_eq_fract p h]
  exact Int.fract_nonneg _

/-- With a rounding to `double` that keeps non-negative values non-negative, the phase
variable of the code stays in `[0, 1)`. -/
theorem generationPhase_bounds (fp : FloatingPoint F)
    (hfp : ∀ x : F, 0 ≤ x → 0 ≤ fp.toDouble x) (a b i : Nat) :
    (0 : F) ≤ generationPhase fp a b i ∧ generationPhase fp a b i < (1 : F) := by
  have hinc : (0 : F) ≤ fp.toDouble ((a : F) / (b : F)) :=
    hfp _ (div_nonneg (Nat.cast_nonneg a) (Nat.cast_nonneg b))
  induction i with
  | zero => exact ⟨le_refl _, zero_lt_one⟩
  | succ i ih =>
    unfold generationPhase at ih ⊢
    rw [Function.iterate_succ_apply']
    exact ⟨wrapPhase_nonneg _ (hfp _ (add_nonneg ih.1 hinc)), wrapPhase_lt_one _⟩

/-- Fractional part of a quotient of naturals. -/
theorem fract_natCast_div (m d : Nat) (hd : 0 < d) :
    Int.fract ((m : F) / (d : F)) = ((m % d : Nat) : F) / (d : F) := by
  have hdF : (0 : F) < (d : F) := Nat.cast_pos.mpr hd
  rw [Int.fract_eq_iff]
  refine ⟨div_nonneg (Nat.cast_nonneg _) hdF.le, ?_, Int.ofNat (m / d), ?_⟩
  · rw [div_lt_one hdF]
    exact_mod_cast Nat.mod_lt m hd
  · have h := Nat.div_add_mod m d
    have hF : (d : F) * ((m / d : Nat) : F) + ((m % d : Nat) : F) = (m : F) := by
      exact_mod_cast h
    rw [Int.ofNat_eq_coe, Int.cast_natCast, ← hF]
    field_simp

theorem reduce_den_pos (a b : Nat) (hb : 0 < b) : 0 < (IntegerRatio.reduce a b).2 :=
  Nat.div_pos (Nat.gcd_le_right b hb) (Nat.gcd_pos_of_pos_right a hb)

theorem reduce_num_pos (a b : Nat) (ha : 0 < a) : 0 < (IntegerRatio.reduce a b).1 :=
  Nat.div_pos (Nat.gcd_le_left b ha) (Nat.gcd_pos_of_pos_left b ha)

theorem reduce_coprime (a b : Nat) (hb : 0 < b) :
    Nat.Coprime (IntegerRatio.reduce a b).1 (IntegerRatio.reduce a b).2 :=
  Nat.coprime_div_gcd_div_gcd (Nat.gcd_pos_of_pos_right a hb)

omit [FloorRing F] in
/-- The reduced ratio has the same value as the ratio of the rates. -/
theorem reduce_ratio (a b : Nat) (hb : 0 < b) :
    (a : F) / (b : F) =
      ((IntegerRatio.reduce a b).1 : F) / ((IntegerRatio.reduce a b).2 : F) := by
  have hg : 0 < Nat.gcd a b := Nat.gcd_pos_of_pos_right a hb
  have hbF : (b : F) ≠ 0 := Nat.cast_ne_zero.mpr hb.ne'
  have hdF : (((IntegerRatio.reduce a b).2 : Nat) : F) ≠ 0 :=
    Nat.cast_ne_zero.mpr (reduce_den_pos a b hb).ne'
  rw [div_eq_div_iff hbF hdF]
  have h1 : (IntegerRatio.reduce a b).1 * Nat.gcd a b = a :=
    Nat.div_mul_cancel (Nat.gcd_dvd_left a b)
  have h2 : (IntegerRatio.reduce a b).2 * Nat.gcd a b = b :=
    Nat.div_mul_cancel (Nat.gcd_dvd_right a b)
  have h : a * (IntegerRatio.reduce a b).2 = (IntegerRatio.reduce a b).1 * b := by
    calc a * (IntegerRatio.reduce a b).2
        = (IntegerRatio.reduce a b).1 * Nat.gcd a b * (IntegerRatio.reduce a b).2 := by
          rw [h1]
      _ = (IntegerRatio.reduce a b).1 * ((IntegerRatio.reduce a b).2 * Nat.gcd a b) := by
          ring
      _ = (IntegerRatio.reduce a b).1 * b := by rw [h2]
  exact_mod_cast h

/-- Closed form of the phase sequence: `p i = ((i * num) mod den) / den`. -/
theorem phaseSequence_closed_form (a b : Nat) (hb : 0 < b) (i : Nat) :
    (phaseSequence a b i : F) =
      (((i * (IntegerRatio.reduce a b).1) % (IntegerRatio.reduce a b).2 : Nat) : F) /
        ((IntegerRatio.reduce a b).2 : F) := by
  have hd := reduce_den_pos a b hb
  induction i with
  | zero => simp [phaseSequence]
  | succ i ih =>
    rw [phaseSequence, ih, reduce_ratio a b hb, ← add_div, ← Nat.cast_add,
      fract_natCast_div _ _ hd]
    congr 2
    rw [Nat.add_mod, Nat.mod_mod, ← Nat.add_mod, Nat.succ_mul]

end PhaseProofs

/-! ## The loops of generateCoefficients -/

section GenerationProofs

variable {F : Type} [LinearOrderedField F] [FloorRing F]

omit [FloorRing F] in
/-- The tap loop of `generateCoefficients` fills the `numTaps` entries that start at the
cursor, in increasing order, and leaves the entries before the cursor alone. -/
theorem generateTap_loop_spec (fp : FloatingPoint F) (pi : F) (w : F → Nat → F)
    (numTaps spread : Nat)
    (p0 : F) (k : Nat) (table : List F) (hk : k + numTaps ≤ table.length) :
    ∃ t, forLoop numTaps (fun _ t => generateTap fp pi w spread t)
        { tapPhase := p0, cursor := k, mCoefficients := table, written := List.range k }
          = some t ∧
      t.cursor = k + numTaps ∧ t.mCoefficients.length = table.length ∧
      t.written = List.range (k + numTaps) ∧
      (∀ j, j < numTaps → t.mCoefficients[k + j]? = some (w (fp.toFloat (fp.toDouble
        ((fun x => fp.toFloat (fp.toDouble (x + 1)))^[j] p0 * pi))) spread)) ∧
      ∀ idx, idx < k → t.mCoefficients[idx]? = table[idx]? := by
  obtain ⟨t, ht, -, h2, h3, h4, h5, h6⟩ := forLoop_invariant
    (fun n (t : GenTapLoop F) =>
      t.tapPhase = (fun x => fp.toFloat (fp.toDouble (x + 1)))^[n] p0 ∧ t.cursor = k + n ∧
      t.mCoefficients.length = table.length ∧ t.written = List.range (k + n) ∧
      (∀ j, j < n → t.mCoefficients[k + j]? = some (w (fp.toFloat (fp.toDouble
        ((fun x => fp.toFloat (fp.toDouble (x + 1)))^[j] p0 * pi))) spread)) ∧
      ∀ idx, idx < k → t.mCoefficients[idx]? = table[idx]?)
    numTaps (fun _ t => generateTap fp pi w spread t)
    { tapPhase := p0, cursor := k, mCoefficients := table, written := List.range k }
    ⟨rfl, rfl, rfl, rfl, fun j hj => absurd hj (Nat.not_lt_zero j), fun _ _ => rfl⟩ (by
      intro n t hn ⟨hp, hc, hlen, hw, hnew, hold⟩
      have hin : t.cursor < t.mCoefficients.length := by omega
      refine ⟨{ tapPhase := fp.toFloat (fp.toDouble (t.tapPhase + 1))
                cursor := t.cursor + 1
                mCoefficients := t.mCoefficients.set t.cursor
                  (w (fp.toFloat (fp.toDouble (t.tapPhase * pi))) spread)
                written := t.written ++ [t.cursor] }, ?_, ?_, ?_, ?_, ?_, ?_, ?_⟩
      · show generateTap fp pi w spread t = _
        unfold generateTap
        show (storeAt t.mCoefficients t.cursor
          (w (fp.toFloat (fp.toDouble (t.tapPhase * pi))) spread)).bind _ = _
        rw [storeAt_eq_some _ _ _ hin]
        rfl
      · show fp.toFloat (fp.toDouble (t.tapPhase + 1)) = _
        rw [hp, Function.iterate_succ_apply']
      · show t.cursor + 1 = _
        omega
      · show (t.mCoefficients.set _ _).length = _
        rw [List.length_set, hlen]
      · show t.written ++ [t.cursor] = _
        rw [hw, hc, ← Nat.add_assoc, List.range_succ]
      · intro j hj
        show (t.mCoefficients.set _ _)[k + j]? = _
        by_cases hjn : j = n
        · rw [hjn, ← hc, List.getElem?_set_self hin, hp]
        · rw [List.getElem?_set_ne (by omega)]
          exact hnew j (by omega)
      · intro idx hidx
        show (t.mCoefficients.set _ _)[idx]? = _
        rw [List.getElem?_set_ne (by omega)]
        exact hold idx hidx)
  exact ⟨t, ht, h2, h3, h4, h5, h6⟩

/-- Invariant of the outer loop of `generateCoefficients` after `n` rows. -/
theorem generateRow_loop_spec (fp : FloatingPoint F) (pi : F) (w : F → Nat → F)
    (numTaps spread a b n : Nat)
    (table : List F) (hn : n * numTaps ≤ table.length) :
    ∃ st, forLoop n
        (fun _ st => generateRow fp pi w numTaps spread
          (fp.toDouble ((a : F) / (b : F))) st)
        { cursor := 0, phase := 0, mCoefficients := table, written := [] } = some st ∧
      st.cursor = n * numTaps ∧ st.phase = generationPhase fp a b n ∧
      st.mCoefficients.length = table.length ∧
      st.written = List.range (n * numTaps) ∧
      ∀ r tap, r < n → tap < numTaps → st.mCoefficients[r * numTaps + tap]? =
        some (w (radiansAt fp pi (generationPhase fp a b r) spread tap) spread) := by
  refine forLoop_invariant
    (fun i (st : GenLoop F) =>
      st.cursor = i * numTaps ∧ st.phase = generationPhase fp a b i ∧
      st.mCoefficients.length = table.length ∧
      st.written = List.range (i * numTaps) ∧
      ∀ r tap, r < i → tap < numTaps → st.mCoefficients[r * numTaps + tap]? =
        some (w (radiansAt fp pi (generationPhase fp a b r) spread tap) spread))
    n _ _ ⟨by simp, rfl, rfl, by simp, fun r _ hr _ => absurd hr (Nat.not_lt_zero r)⟩ ?_
  intro i st hi ⟨hc, hp, hlen, hw, hrows⟩
  have hfit : i * numTaps + numTaps ≤ table.length := by
    calc i * numTaps + numTaps = (i + 1) * numTaps := by rw [Nat.succ_mul]
      _ ≤ n * numTaps := Nat.mul_le_mul_right _ hi
      _ ≤ table.length := hn
  obtain ⟨t, ht, htc, htlen, htw, htnew, htold⟩ := generateTap_loop_spec fp pi w numTaps
    spread (fp.toFloat (fp.toDouble (st.phase - (spread : F)))) st.cursor st.mCoefficients
    (by omega)
  refine ⟨{ cursor := t.cursor
            phase := nextPhase fp (fp.toDouble ((a : F) / (b : F))) st.phase
            mCoefficients := t.mCoefficients
            written := t.written }, ?_, ?_, ?_, ?_, ?_, ?_⟩
  · show generateRow fp pi w numTaps spread (fp.toDouble ((a : F) / (b : F))) st = _
    unfold generateRow
    have hst : ({ tapPhase := fp.toFloat (fp.toDouble (st.phase - (spread : F))),
                  cursor := st.cursor,
                  mCoefficients := st.mCoefficients, written := st.written } : GenTapLoop F)
        = { tapPhase := fp.toFloat (fp.toDouble (st.phase - (spread : F))),
            cursor := st.cursor,
            mCoefficients := st.mCoefficients, written := List.range st.cursor } := by
      rw [hw, hc]
    rw [hst]
    show (forLoop numTaps _ _).bind _ = _
    rw [ht]
    rfl
  · show t.cursor = _
    rw [htc, hc, Nat.succ_mul]
  · show nextPhase fp _ st.phase = _
    rw [hp]
    unfold generationPhase
    rw [Function.iterate_succ_apply']
  · show t.mCoefficients.length = _
    omega
  · show t.written = _
    rw [htw, hc, Nat.succ_mul]
  · intro r tap hr htap
    show t.mCoefficients[r * numTaps + tap]? = _
    by_cases hri : r = i
    · rw [hri, ← hc, htnew tap htap, hp]
      rfl
    · have hlt : r < i := by omega
      have hidx : r * numTaps + tap < st.cursor := by
        rw [hc]
        calc r * numTaps + tap < r * numTaps + numTaps := by omega
          _ = (r + 1) * numTaps := by rw [Nat.succ_mul]
          _ ≤ i * numTaps := Nat.mul_le_mul_right _ hlt
      rw [htold _ hidx]
      exact hrows r tap hlt htap

omit [LinearOrderedField F] [FloorRing F] in
theorem resize_length [Zero F] (v : List F) (n : Nat) : (resize v n).length = n := by
  unfold resize
  rw [List.length_append, List.length_take, List.length_replicate]
  omega

theorem intProductSize_of_lt (a b : Nat) (h : a * b < 2 ^ 31) :
    intProductSize a b = some (a * b) := by
  unfold intProductSize
  generalize a * b = p at h
  have hmod : p % 2 ^ 32 = p := Nat.mod_eq_of_lt (by omega)
  rw [hmod, if_pos h]

theorem intProductSize_le (a b size : Nat) (h : intProductSize a b = some size) :
    size ≤ a * b ∧ size < 2 ^ 31 ∧ size = (a * b) % 2 ^ 32 := by
  unfold intProductSize at h
  generalize a * b = p at h
  split at h
  · cases h
    exact ⟨Nat.mod_le _ _, by assumption, rfl⟩
  · cases h

omit [FloorRing F] in
/-- When the tap loop of `generateCoefficients` returns, it has advanced the cursor by
`numTaps` inside the table. -/
theorem generateTap_loop_fits (fp : FloatingPoint F) (pi : F) (w : F → Nat → F)
    (numTaps spread : Nat) (t0 t : GenTapLoop F)
    (h : forLoop numTaps (fun _ t => generateTap fp pi w spread t) t0 = some t) :
    t.cursor = t0.cursor + numTaps ∧ t.mCoefficients.length = t0.mCoefficients.length ∧
      (numTaps = 0 ∨ t0.cursor + numTaps ≤ t0.mCoefficients.length) := by
  refine forLoop_invariant_of_some
    (fun n (x : GenTapLoop F) => x.cursor = t0.cursor + n ∧
      x.mCoefficients.length = t0.mCoefficients.length ∧
      (n = 0 ∨ t0.cursor + n ≤ t0.mCoefficients.length))
    numTaps _ t0 t ⟨rfl, rfl, Or.inl rfl⟩ ?_ h
  intro n x y _ ⟨hc, hlen, _⟩ hy
  unfold generateTap at hy
  obtain ⟨table, htable, hy⟩ := Option.bind_eq_some.mp hy
  cases hy
  have hl := storeAt_length htable
  unfold storeAt at htable
  split at htable
  · next hlt =>
    refine ⟨?_, ?_, Or.inr ?_⟩
    · show x.cursor + 1 = _
      omega
    · show table.length = _
      omega
    · omega
  · cases htable

/-- When the outer loop of `generateCoefficients` returns after `n` rows, the table holds
`n * numTaps` entries at least. -/
theorem generateRow_loop_fits (fp : FloatingPoint F) (pi : F) (w : F → Nat → F)
    (numTaps spread n : Nat) (inc : F) (init st : GenLoop F) (h0 : init.cursor = 0)
    (h : forLoop n (fun _ st => generateRow fp pi w numTaps spread inc st) init = some st) :
    n * numTaps ≤ init.mCoefficients.length := by
  have hinv := forLoop_invariant_of_some
    (fun i (x : GenLoop F) => x.cursor = i * numTaps ∧
      x.mCoefficients.length = init.mCoefficients.length ∧
      i * numTaps ≤ init.mCoefficients.length)
    n _ init st ⟨by rw [h0, Nat.zero_mul], rfl, by rw [Nat.zero_mul]; exact Nat.zero_le _⟩
    (by
      intro i x y _ ⟨hc, hlen, hle⟩ hy
      unfold generateRow at hy
      obtain ⟨t, ht, hy⟩ := Option.bind_eq_some.mp hy
      cases hy
      obtain ⟨h1, h2, h3⟩ := generateTap_loop_fits fp pi w numTaps spread _ t ht
      have hc2 : t.cursor = i * numTaps + numTaps := by rw [h1]; show x.cursor + _ = _; rw [hc]
      have hl2 : t.mCoefficients.length = init.mCoefficients.length := by
        rw [h2]
        exact hlen
      refine ⟨?_, hl2, ?_⟩
      · show t.cursor = _
        rw [hc2, Nat.succ_mul]
      · rw [Nat.succ_mul]
        rcases h3 with h3 | h3
        · omega
        · have h4 : x.cursor + numTaps ≤ x.mCoefficients.length := h3
          omega) h
  exact hinv.2.2

/-- When the product `numTaps * denominator` fits in an `int`, `generateCoefficients`
returns the object with the reduced ratio, `mIntegerPhase = mDenominator` and a table of
`numTaps * denominator` entries, each written once, in increasing index order, with the
value computed for its row and tap. -/
theorem generateCoefficients_spec (fp : FloatingPoint F) (pi : F) (w : F → Nat → F)
    (s : PolyphaseResampler F) (a b : Nat)
    (hfit : s.mNumTaps * (IntegerRatio.reduce a b).2 < 2 ^ 31) :
    ∃ table, generateCoefficients fp pi w s a b =
        some ({ s with mNumerator := (IntegerRatio.reduce a b).1
                       mDenominator := (IntegerRatio.reduce a b).2
                       mIntegerPhase := (IntegerRatio.reduce a b).2
                       mCoefficients := table },
              List.range (s.mNumTaps * (IntegerRatio.reduce a b).2)) ∧
      table.length = s.mNumTaps * (IntegerRatio.reduce a b).2 ∧
      ∀ r tap, r < (IntegerRatio.reduce a b).2 → tap < s.mNumTaps →
        table[r * s.mNumTaps + tap]? = some (w (radiansAt fp pi (generationPhase fp a b r)
          (s.mNumTaps / 2) tap) (s.mNumTaps / 2)) := by
  obtain ⟨st, hst, -, -, hlen, hw, hrows⟩ := generateRow_loop_spec fp pi w s.mNumTaps
    (s.mNumTaps / 2) a b (IntegerRatio.reduce a b).2
    (resize s.mCoefficients (s.mNumTaps * (IntegerRatio.reduce a b).2))
    (by rw [resize_length, Nat.mul_comm])
  refine ⟨st.mCoefficients, ?_, by rw [hlen, resize_length], hrows⟩
  unfold generateCoefficients
  simp only [intProductSize_of_lt _ _ hfit]
  show (forLoop _ _ _).bind _ = _
  rw [hst]
  show some (_, st.written) = _
  rw [hw, Nat.mul_comm]

/-- `generateCoefficients` returns only when the product `numTaps * denominator` fits in
an `int`: otherwise `resize` throws or the table is too short for the writes. -/
theorem generateCoefficients_fits (fp : FloatingPoint F) (pi : F) (w : F → Nat → F)
    (s : PolyphaseResampler F) (a b : Nat) (r : PolyphaseResampler F × List Nat)
    (h : generateCoefficients fp pi w s a b = some r) :
    s.mNumTaps * (IntegerRatio.reduce a b).2 < 2 ^ 31 := by
  unfold generateCoefficients at h
  obtain ⟨size, hsize, h⟩ := Option.bind_eq_some.mp h
  obtain ⟨st, hst, -⟩ := Option.bind_eq_some.mp h
  have hle := generateRow_loop_fits fp pi w _ _ _ _ _ st rfl hst
  rw [resize_length, Nat.mul_comm] at hle
  obtain ⟨h1, h2, -⟩ := intProductSize_le _ _ _ hsize
  omega

/-- The failure direction: when the product does not fit, `generateCoefficients` throws. -/
theorem generateCoefficients_none (fp : FloatingPoint F) (pi : F) (w : F → Nat → F)
    (s : PolyphaseResampler F) (a b : Nat)
    (h : 2 ^ 31 ≤ s.mNumTaps * (IntegerRatio.reduce a b).2) :
    generateCoefficients fp pi w s a b = none := by
  cases hg : generateCoefficients fp pi w s a b with
  | none => rfl
  | some r =>
    have := generateCoefficients_fits fp pi w s a b r hg
    omega

/-- Construction succeeds when the tap count passes the assertion and the table size fits
in an `int`; the object it yields is the base object with the reduced ratio and the
generated table. -/
theorem construct_spec (fp : FloatingPoint F) (pi : F) (w : F → Nat → F)
    (numTaps a b channelCount : Nat)
    (h4 : numTaps % 4 = 0) (hfit : numTaps * (IntegerRatio.reduce a b).2 < 2 ^ 31) :
    ∃ table, PolyphaseResampler.construct fp pi w numTaps a b channelCount =
        Except.ok { (MultiChannelResampler.init numTaps channelCount : PolyphaseResampler F)
                    with mNumerator := (IntegerRatio.reduce a b).1
                         mDenominator := (IntegerRatio.reduce a b).2
                         mIntegerPhase := (IntegerRatio.reduce a b).2
                         mCoefficients := table } ∧
      table.length = numTaps * (IntegerRatio.reduce a b).2 ∧
      ∀ r tap, r < (IntegerRatio.reduce a b).2 → tap < numTaps →
        table[r * numTaps + tap]? = some (w (radiansAt fp pi (generationPhase fp a b r)
          (numTaps / 2) tap) (numTaps / 2)) := by
  obtain ⟨table, hgen, hlen, hrows⟩ := generateCoefficients_spec fp pi w
    (MultiChannelResampler.init numTaps channelCount : PolyphaseResampler F) a b hfit
  refine ⟨table, ?_, hlen, hrows⟩
  unfold PolyphaseResampler.construct
  simp only [h4, if_true]
  rw [hgen]

theorem construct_fails (fp : FloatingPoint F) (pi : F) (w : F → Nat → F)
    (numTaps a b channelCount : Nat)
    (h4 : numTaps % 4 ≠ 0) :
    PolyphaseResampler.construct fp pi w numTaps a b channelCount =
      Except.error ConstructionFailure.tapCountAssertion := by
  unfold PolyphaseResampler.construct
  simp only [h4, if_false]

/-- When the table size does not fit in an `int`, construction with a good tap count ends
with the exception thrown by `generateCoefficients`. -/
theorem construct_overflow (fp : FloatingPoint F) (pi : F) (w : F → Nat → F)
    (numTaps a b channelCount : Nat) (h4 : numTaps % 4 = 0)
    (h : 2 ^ 31 ≤ numTaps * (IntegerRatio.reduce a b).2) :
    PolyphaseResampler.construct fp pi w numTaps a b channelCount =
      Except.error ConstructionFailure.coefficientRangeError := by
  unfold PolyphaseResampler.construct
  simp only [h4, if_true]
  rw [generateCoefficients_none fp pi w _ a b h]

/-- Every constructed object comes from a good tap count and a table size that fits. -/
theorem construct_ok_inv (fp : FloatingPoint F) (pi : F) (w : F → Nat → F)
    (numTaps a b channelCount : Nat) (s0 : PolyphaseResampler F)
    (h : PolyphaseResampler.construct fp pi w numTaps a b channelCount = Except.ok s0) :
    numTaps % 4 = 0 ∧ numTaps * (IntegerRatio.reduce a b).2 < 2 ^ 31 := by
  by_cases h4 : numTaps % 4 = 0
  · refine ⟨h4, ?_⟩
    by_contra hnot
    rw [construct_overflow fp pi w numTaps a b channelCount h4 (by omega)] at h
    cases h
  · rw [construct_fails fp pi w numTaps a b channelCount h4] at h
    cases h

end GenerationProofs

/-! ## Sequences of readFrame calls -/

section ReadSequenceProofs

variable {K : Type} [Zero K] [Add K] [Mul K]

omit [Add K] [Mul K] in
theorem clearAccumulator_length (C : Nat) (acc a : List K)
    (h : clearAccumulator C acc = some a) : a.length = acc.length := by
  unfold clearAccumulator at h
  exact forLoop_preserves (fun x => x.length = acc.length) C _ acc a rfl
    (fun i x y hx hy => (storeAt_length hy).trans hx) h

omit [Zero K] in
theorem accumulateFrame_length (C : Nat) (coefficient : K) (mX : List K) (xIndex : Nat)
    (acc a : List K) (h : accumulateFrame C coefficient mX xIndex acc = some a) :
    a.length = acc.length := by
  unfold accumulateFrame at h
  refine forLoop_preserves (fun x => x.length = acc.length) C _ acc a rfl ?_ h
  intro i x y hx hy
  obtain ⟨v, -, hy⟩ := Option.bind_eq_some.mp hy
  obtain ⟨o, -, hy⟩ := Option.bind_eq_some.mp hy
  exact (storeAt_length hy).trans hx

omit [Zero K] in
theorem tapStep_length (s : PolyphaseResampler K) (st st2 : TapLoop K)
    (h : tapStep s st = some st2) : st2.mSingleFrame.length = st.mSingleFrame.length := by
  unfold tapStep at h
  obtain ⟨v, -, h⟩ := Option.bind_eq_some.mp h
  obtain ⟨a, ha, h⟩ := Option.bind_eq_some.mp h
  cases h
  exact accumulateFrame_length _ _ _ _ _ _ ha

/-- Whenever `readFrame` returns, the accumulator keeps its length. -/
theorem readFrame_acc_length (s t : PolyphaseResampler K) (frame out : List K)
    (h : readFrame s frame = some (t, out)) :
    t.mSingleFrame.length = s.mSingleFrame.length := by
  unfold readFrame at h
  obtain ⟨a0, ha0, h⟩ := Option.bind_eq_some.mp h
  obtain ⟨st, hst, h⟩ := Option.bind_eq_some.mp h
  have hlen : st.mSingleFrame.length = a0.length :=
    forLoop_preserves (fun (x : TapLoop K) => x.mSingleFrame.length = a0.length)
      s.mNumTaps _ _ st rfl
      (fun i x y hx hy => (tapStep_length s x y hy).trans hx) hst
  split at h
  · cases h
  · obtain ⟨o, -, h⟩ := Option.bind_eq_some.mp h
    cases h
    show st.mSingleFrame.length = _
    rw [hlen, clearAccumulator_length _ _ _ ha0]

/-- Advancing a row cursor by one row, modulo the table size. -/
theorem cursor_advance (N den r : Nat) :
    (r * N + N) % (N * den) = ((r + 1) % den) * N := by
  rw [← Nat.succ_mul, Nat.mul_comm (r + 1) N, Nat.mul_mod_mul_left, Nat.mul_comm]

theorem row_fits (N den r : Nat) (hr : r < den) : r * N + N ≤ N * den := by
  calc r * N + N = (r + 1) * N := by rw [Nat.succ_mul]
    _ ≤ den * N := Nat.mul_le_mul_right _ hr
    _ = N * den := Nat.mul_comm _ _

/-- `k` successive `readFrame` calls, started on row `r0` of a table of `den` rows, all
return; they change only the accumulator and the cursor, which ends on row
`(r0 + k) mod den`. -/
theorem readFrames_spec (s : PolyphaseResampler K) (frame : List K) (den r0 : Nat)
    (hr0 : r0 < den)
    (hlen : s.mCoefficients.length = s.mNumTaps * den)
    (hN : 0 < s.mNumTaps)
    (hq : s.mCoefficientCursor = r0 * s.mNumTaps)
    (hx : (s.mCursor + s.mNumTaps + 1) * s.mChannelCount ≤ s.mX.length)
    (hacc : s.mChannelCount ≤ s.mSingleFrame.length)
    (hf : s.mChannelCount ≤ frame.length) (k : Nat) :
    ∃ acc fk, readFrames k s frame =
        some ({ s with mSingleFrame := acc
                       mCoefficientCursor := ((r0 + k) % den) * s.mNumTaps }, fk) ∧
      acc.length = s.mSingleFrame.length ∧ fk.length = frame.length := by
  have hden : 0 < den := by omega
  induction k with
  | zero =>
    refine ⟨s.mSingleFrame, frame, ?_, rfl, rfl⟩
    show some (s, frame) = _
    rw [Nat.add_zero, Nat.mod_eq_of_lt hr0, ← hq]
  | succ k ih =>
    obtain ⟨acc, fk, hk, hal, hfl⟩ := ih
    have hrk : (r0 + k) % den < den := Nat.mod_lt _ hden
    have hb : InBounds ({ s with mSingleFrame := acc
                                 mCoefficientCursor := ((r0 + k) % den) * s.mNumTaps }) :=
      ⟨by rw [hlen]; exact row_fits _ _ _ hrk,
       by rw [hlen]; exact Nat.mul_pos hN hden, hx, by rw [hal]; exact hacc⟩
    obtain ⟨acc2, out, hread, hal2, hol, -, -⟩ := readFrame_fold_spec _ fk hb
      (by rw [hfl]; exact hf)
    refine ⟨acc2, out, ?_, by rw [hal2]; exact hal, by rw [hol, hfl]⟩
    show (readFrames k s frame).bind _ = _
    rw [hk]
    show readFrame _ fk = _
    rw [hread]
    show some (({ s with mSingleFrame := acc2
                         mCoefficientCursor :=
                           ((r0 + k) % den * s.mNumTaps + s.mNumTaps) %
                             s.mCoefficients.length } : PolyphaseResampler K), out) = _
    rw [hlen, cursor_advance, Nat.mod_add_mod, Nat.add_assoc]

end ReadSequenceProofs

/-! ## Reachable states -/

section ReachabilityProofs

variable {K : Type} [Semiring K]

/-- Along `readFrame` calls only the accumulator and the coefficient cursor change, the
accumulator keeps its length, and the cursor stays on a row start of a table of `den`
rows. -/
theorem reachable_invariant (s0 : PolyphaseResampler K) (den : Nat) (hden : 0 < den)
    (hlen : s0.mCoefficients.length = s0.mNumTaps * den)
    (hq0 : s0.mCoefficientCursor = 0) (s : PolyphaseResampler K)
    (h : ReachableByReads s0 s) :
    s = { s0 with mSingleFrame := s.mSingleFrame
                  mCoefficientCursor := s.mCoefficientCursor } ∧
      s.mSingleFrame.length = s0.mSingleFrame.length ∧
      ∃ r, r < den ∧ s.mCoefficientCursor = r * s0.mNumTaps := by
  induction h with
  | start => exact ⟨rfl, rfl, 0, hden, by rw [hq0, Nat.zero_mul]⟩
  | read hreach hread ih =>
    rename_i s t frame out
    obtain ⟨hs, hal, r, hr, hq⟩ := ih
    have ht := readFrame_frame s t frame out hread
    have hN : s.mNumTaps = s0.mNumTaps := by rw [hs]
    have hT : s.mCoefficients = s0.mCoefficients := by rw [hs]
    have hcur : t.mCoefficientCursor = ((r + 1) % den) * s0.mNumTaps := by
      rw [ht]
      show (s.mCoefficientCursor + s.mNumTaps) % s.mCoefficients.length = _
      rw [hq, hN, hT, hlen, cursor_advance]
    refine ⟨?_, ?_, (r + 1) % den, Nat.mod_lt _ hden, hcur⟩
    · rw [ht, hs]
    · rw [readFrame_acc_length s t frame out hread, hal]

end ReachabilityProofs

section FreshStateProofs

variable {F : Type} [LinearOrderedField F] [FloorRing F]

omit [FloorRing F] in
/-- The history buffer of the base object holds the frames `1 .. numTaps` above the
initial write cursor 0 as soon as there is at least one tap. -/
theorem init_history_fits (numTaps channelCount : Nat) (hN : 0 < numTaps) :
    ((MultiChannelResampler.init numTaps channelCount : PolyphaseResampler F).mCursor
        + numTaps + 1) * channelCount ≤
      (MultiChannelResampler.init numTaps channelCount : PolyphaseResampler F).mX.length := by
  show (0 + numTaps + 1) * channelCount ≤
    (List.replicate (channelCount * numTaps * 2) (0 : F)).length
  rw [List.length_replicate]
  calc (0 + numTaps + 1) * channelCount ≤ (numTaps * 2) * channelCount :=
        Nat.mul_le_mul_right _ (by omega)
    _ = channelCount * numTaps * 2 := by ring

end FreshStateProofs

/-! ## Scaling both rates -/

theorem reduce_scale (k a b : Nat) (hk : 0 < k) :
    IntegerRatio.reduce (k * a) (k * b) = IntegerRatio.reduce a b := by
  unfold IntegerRatio.reduce
  rw [Nat.gcd_mul_left, Nat.mul_div_mul_left _ _ hk, Nat.mul_div_mul_left _ _ hk]

theorem ratio_scale {F : Type} [LinearOrderedField F] (k a b : Nat) (hk : 0 < k) :
    (((k * a : Nat) : F)) / (((k * b : Nat) : F)) = (a : F) / (b : F) := by
  have hkF : (k : F) ≠ 0 := Nat.cast_ne_zero.mpr hk.ne'
  rw [Nat.cast_mul, Nat.cast_mul, mul_div_mul_left _ _ hkF]

/-- `generateCoefficients` gives the same result for the rates `(k * a, k * b)` as for
`(a, b)`. -/
theorem generateCoefficients_scale {F : Type} [LinearOrderedField F] [FloorRing F]
    (fp : FloatingPoint F) (pi : F) (w : F → Nat → F) (s : PolyphaseResampler F) (k a b : Nat) (hk : 0 < k) :
    generateCoefficients fp pi w s (k * a) (k * b) = generateCoefficients fp pi w s a b := by
  unfold generateCoefficients
  rw [reduce_scale k a b hk, ratio_scale k a b hk]

theorem construct_scale {F : Type} [LinearOrderedField F] [FloorRing F]
    (fp : FloatingPoint F) (pi : F) (w : F → Nat → F) (numTaps k a b channelCount : Nat) (hk : 0 < k) :
    PolyphaseResampler.construct fp pi w numTaps (k * a) (k * b) channelCount =
      PolyphaseResampler.construct fp pi w numTaps a b channelCount := by
  unfold PolyphaseResampler.construct
  simp only [generateCoefficients_scale fp pi w _ k a b hk]

/-! ## Instrumented loops -/

section CountedProofs

variable {F : Type} [LinearOrderedField F] [FloorRing F]

end CountedProofs

/-! ## The read log of readFrame -/

section TracedProofs

variable {K : Type} [Semiring K]

/-- The traced channel loop projects to the channel loop. -/
theorem accumulateFrameTraced_project (C : Nat) (coefficient : K) (mX : List K)
    (xIndex : Nat) (st : List K × List ReadAccess) :
    (accumulateFrameTraced C coefficient mX xIndex st).map Prod.fst =
      accumulateFrame C coefficient mX xIndex st.1 := by
  unfold accumulateFrameTraced accumulateFrame
  refine forLoop_project Prod.fst _ _ ?_ C st
  intro channel t
  cases mX[xIndex + channel]? with
  | none => rfl
  | some x =>
    cases t.1[channel]? with
    | none => rfl
    | some old =>
      show ((storeAt t.1 channel (old + coefficient * x)).bind _).map Prod.fst
        = storeAt t.1 channel (old + coefficient * x)
      cases storeAt t.1 channel (old + coefficient * x) with
      | none => rfl
      | some a => rfl

/-- The traced tap step projects to the tap step. -/
theorem tapStepTraced_project (s : PolyphaseResampler K) (st : TapLoop K × List ReadAccess) :
    (tapStepTraced s st).map Prod.fst = tapStep s st.1 := by
  unfold tapStepTraced tapStep
  cases s.mCoefficients[st.1.coefficients]? with
  | none => rfl
  | some coefficient =>
    have h := accumulateFrameTraced_project s.mChannelCount coefficient s.mX st.1.xIndex
      (st.1.mSingleFrame, st.2 ++ [ReadAccess.coefficient st.1.coefficients])
    show ((accumulateFrameTraced s.mChannelCount coefficient s.mX st.1.xIndex _).bind _).map
      Prod.fst = (accumulateFrame s.mChannelCount coefficient s.mX st.1.xIndex
        st.1.mSingleFrame).bind _
    rw [← h]
    cases accumulateFrameTraced s.mChannelCount coefficient s.mX st.1.xIndex
        (st.1.mSingleFrame, st.2 ++ [ReadAccess.coefficient st.1.coefficients]) with
    | none => rfl
    | some r => rfl

/-- Erasure of the log: the traced `readFrame` returns what `readFrame` returns. -/
theorem readFrameTraced_project (s : PolyphaseResampler K) (frame : List K) :
    (readFrameTraced s frame).map Prod.fst = readFrame s frame := by
  unfold readFrameTraced readFrame
  cases clearAccumulator s.mChannelCount s.mSingleFrame with
  | none => rfl
  | some cleared =>
    have h := forLoop_project Prod.fst (fun _ st => tapStep s st)
      (fun _ st => tapStepTraced s st) (fun _ t => tapStepTraced_project s t) s.mNumTaps
      (({ coefficients := s.mCoefficientCursor
          xIndex := (s.mCursor + s.mNumTaps) * s.mChannelCount
          mSingleFrame := cleared } : TapLoop K), ([] : List ReadAccess))
    show ((forLoop s.mNumTaps (fun _ st => tapStepTraced s st) _).bind _).map Prod.fst
      = (forLoop s.mNumTaps (fun _ st => tapStep s st) _).bind _
    rw [← h]
    cases forLoop s.mNumTaps (fun _ st => tapStepTraced s st)
        (({ coefficients := s.mCoefficientCursor
            xIndex := (s.mCursor + s.mNumTaps) * s.mChannelCount
            mSingleFrame := cleared } : TapLoop K), ([] : List ReadAccess)) with
    | none => rfl
    | some st =>
      show (if s.mCoefficients.length = 0 then none else _).map Prod.fst
        = if s.mCoefficients.length = 0 then none else _
      split
      · rfl
      · show ((copyAccumulator s.mChannelCount st.1.mSingleFrame frame).bind _).map Prod.fst
          = (copyAccumulator s.mChannelCount st.1.mSingleFrame frame).bind _
        cases copyAccumulator s.mChannelCount st.1.mSingleFrame frame with
        | none => rfl
        | some out => rfl

/-- What the traced channel loop appends to the log. -/
theorem accumulateFrameTraced_log (C : Nat) (coefficient : K) (mX : List K) (xIndex : Nat)
    (st st2 : List K × List ReadAccess)
    (h : accumulateFrameTraced C coefficient mX xIndex st = some st2) :
    st2.2.length = st.2.length + C ∧
      ∀ e, e ∈ st2.2 → e ∈ st.2 ∨ ∃ ch, ch < C ∧ e = ReadAccess.history (xIndex + ch) := by
  unfold accumulateFrameTraced at h
  refine forLoop_invariant_of_some
    (fun i (x : List K × List ReadAccess) => x.2.length = st.2.length + i ∧
      ∀ e, e ∈ x.2 → e ∈ st.2 ∨ ∃ ch, ch < i ∧ e = ReadAccess.history (xIndex + ch))
    C _ st st2 ⟨rfl, fun e he => Or.inl he⟩ ?_ h
  intro i a b _ ⟨hlen, hmem⟩ hb
  obtain ⟨x, -, hb⟩ := Option.bind_eq_some.mp hb
  obtain ⟨old, -, hb⟩ := Option.bind_eq_some.mp hb
  obtain ⟨acc, -, hb⟩ := Option.bind_eq_some.mp hb
  cases hb
  refine ⟨?_, ?_⟩
  · show (a.2 ++ [_]).length = _
    rw [List.length_append, hlen]
    rfl
  · intro e he
    have he2 : e ∈ a.2 ++ [ReadAccess.history (xIndex + i)] := he
    rw [List.mem_append, List.mem_singleton] at he2
    rcases he2 with he2 | he2
    · rcases hmem e he2 with hl | ⟨ch, hch, hce⟩
      · exact Or.inl hl
      · exact Or.inr ⟨ch, Nat.lt_succ_of_lt hch, hce⟩
    · exact Or.inr ⟨i, Nat.lt_succ_self i, he2⟩

/-- What the traced tap step does to the loop variables and to the log. -/
theorem tapStepTraced_log (s : PolyphaseResampler K) (st st2 : TapLoop K × List ReadAccess)
    (h : tapStepTraced s st = some st2) :
    st2.1.coefficients = st.1.coefficients + 1 ∧
      st2.1.xIndex = st.1.xIndex - s.mChannelCount ∧
      st2.2.length = st.2.length + (s.mChannelCount + 1) ∧
      ∀ e, e ∈ st2.2 → e ∈ st.2 ∨ e = ReadAccess.coefficient st.1.coefficients ∨
        ∃ ch, ch < s.mChannelCount ∧ e = ReadAccess.history (st.1.xIndex + ch) := by
  unfold tapStepTraced at h
  obtain ⟨coefficient, -, h⟩ := Option.bind_eq_some.mp h
  obtain ⟨r, hr, h⟩ := Option.bind_eq_some.mp h
  cases h
  obtain ⟨hlen, hmem⟩ := accumulateFrameTraced_log _ _ _ _ _ _ hr
  refine ⟨rfl, rfl, ?_, ?_⟩
  · show r.2.length = _
    rw [hlen, List.length_append]
    show st.2.length + 1 + s.mChannelCount = _
    omega
  · intro e he
    rcases hmem e he with hl | hch
    · rw [List.mem_append, List.mem_singleton] at hl
      rcases hl with hl | hl
      · exact Or.inl hl
      · exact Or.inr (Or.inl hl)
    · exact Or.inr (Or.inr hch)

/-- Under in-bounds index ranges the traced `readFrame` returns what `readFrame` returns,
logs `numTaps * (channelCount + 1)` reads, and every logged read is in its range. -/
theorem readFrameTraced_spec (s : PolyphaseResampler K) (frame : List K) (hb : InBounds s)
    (hf : s.mChannelCount ≤ frame.length) :
    ∃ r log, readFrameTraced s frame = some (r, log) ∧ readFrame s frame = some r ∧
      log.length = s.mNumTaps * (s.mChannelCount + 1) ∧
      ∀ e, e ∈ log → ReadAccess.InRange s e := by
  obtain ⟨acc, out, hread, -⟩ := readFrame_spec s frame hb hf
  have hproj := readFrameTraced_project s frame
  rw [hread] at hproj
  obtain ⟨rl, hrl, hfst⟩ := Option.map_eq_some'.mp hproj
  refine ⟨rl.1, rl.2, hrl, by rw [hfst]; exact hread, ?_⟩
  unfold readFrameTraced at hrl
  obtain ⟨cleared, -, hrl⟩ := Option.bind_eq_some.mp hrl
  obtain ⟨st, hst, hrl⟩ := Option.bind_eq_some.mp hrl
  have hinv := forLoop_invariant_of_some
    (fun i (x : TapLoop K × List ReadAccess) =>
      x.1.coefficients = s.mCoefficientCursor + i ∧
      x.1.xIndex = (s.mCursor + s.mNumTaps - i) * s.mChannelCount ∧
      x.2.length = i * (s.mChannelCount + 1) ∧
      ∀ e, e ∈ x.2 → ReadAccess.InRange s e)
    s.mNumTaps (fun _ st => tapStepTraced s st)
    (({ coefficients := s.mCoefficientCursor
        xIndex := (s.mCursor + s.mNumTaps) * s.mChannelCount
        mSingleFrame := cleared } : TapLoop K), ([] : List ReadAccess))
    st ⟨rfl, rfl, by simp, fun e he => by cases he⟩
    (by
      intro i a b hi ⟨hc, hxi, hlen, hmem⟩ hstep
      obtain ⟨h1, h2, h3, h4⟩ := tapStepTraced_log s a b hstep
      have hk : s.mCursor + s.mNumTaps - i = (s.mCursor + s.mNumTaps - (i + 1)) + 1 := by
        omega
      refine ⟨by rw [h1, hc]; omega, ?_, ?_, ?_⟩
      · rw [h2, hxi, hk, Nat.succ_mul]
        omega
      · rw [h3, hlen, Nat.succ_mul]
      · intro e he
        rcases h4 e he with hl | hl | ⟨ch, hch, hl⟩
        · exact hmem e hl
        · rw [hl, hc]
          exact ⟨Nat.le_add_right _ _, by omega, lt_of_lt_of_le (by omega) hb.1⟩
        · rw [hl, hxi]
          have hlow : (s.mCursor + 1) * s.mChannelCount ≤
              (s.mCursor + s.mNumTaps - i) * s.mChannelCount :=
            Nat.mul_le_mul_right _ (by omega)
          have hup : (s.mCursor + s.mNumTaps - i) * s.mChannelCount + ch <
              (s.mCursor + s.mNumTaps + 1) * s.mChannelCount := by
            calc (s.mCursor + s.mNumTaps - i) * s.mChannelCount + ch
                < (s.mCursor + s.mNumTaps - i) * s.mChannelCount + s.mChannelCount := by
                  omega
              _ = (s.mCursor + s.mNumTaps - i + 1) * s.mChannelCount := by
                  rw [Nat.succ_mul]
              _ ≤ (s.mCursor + s.mNumTaps + 1) * s.mChannelCount :=
                  Nat.mul_le_mul_right _ (by omega)
          exact ⟨Nat.le_trans hlow (Nat.le_add_right _ _), hup,
            lt_of_lt_of_le hup hb.2.2.1⟩) hst
  obtain ⟨-, -, hlen, hmem⟩ := hinv
  split at hrl
  · cases hrl
  · obtain ⟨o, -, hrl⟩ := Option.bind_eq_some.mp hrl
    cases hrl
    exact ⟨hlen, hmem⟩

end TracedProofs

/-! ## The write/read protocol -/

theorem drive_zero (d : Drive) : drive 0 d = d := rfl

theorem drive_succ (n : Nat) (d : Drive) : drive (n + 1) d = driveStep (drive n d) := by
  unfold drive
  rw [Function.iterate_succ_apply']

theorem drive_add (m n : Nat) (d : Drive) : drive (m + n) d = drive n (drive m d) := by
  unfold drive
  rw [Nat.add_comm, Function.iterate_add_apply]

/-- Invariant of the protocol started with the accumulator at the denominator: the ratio
is kept, every step is one read or one write, the accumulator is the balance of the
numerators added by the reads and the denominators removed by the writes, and it stays
below `denominator + numerator`. -/
theorem drive_invariant (num den r0 w0 : Nat) (hnum : 0 < num) (n : Nat) :
    (drive n ⟨⟨num, den, den⟩, r0, w0⟩).phase.mNumerator = num ∧
    (drive n ⟨⟨num, den, den⟩, r0, w0⟩).phase.mDenominator = den ∧
    (drive n ⟨⟨num, den, den⟩, r0, w0⟩).reads + (drive n ⟨⟨num, den, den⟩, r0, w0⟩).writes
      = r0 + w0 + n ∧
    (drive n ⟨⟨num, den, den⟩, r0, w0⟩).phase.mIntegerPhase
        + (drive n ⟨⟨num, den, den⟩, r0, w0⟩).writes * den + r0 * num
      = den + (drive n ⟨⟨num, den, den⟩, r0, w0⟩).reads * num + w0 * den ∧
    (drive n ⟨⟨num, den, den⟩, r0, w0⟩).phase.mIntegerPhase < den + num ∧
    r0 ≤ (drive n ⟨⟨num, den, den⟩, r0, w0⟩).reads ∧
    w0 ≤ (drive n ⟨⟨num, den, den⟩, r0, w0⟩).writes := by
  induction n with
  | zero =>
    rw [drive_zero]
    refine ⟨rfl, rfl, rfl, ?_, ?_, le_refl _, le_refl _⟩
    · show den + w0 * den + r0 * num = den + r0 * num + w0 * den
      omega
    · show den < den + num
      omega
  | succ n ih =>
    obtain ⟨hN, hD, hsum, hlin, hlt, hr, hw⟩ := ih
    rw [drive_succ]
    generalize drive n ⟨⟨num, den, den⟩, r0, w0⟩ = d at hN hD hsum hlin hlt hr hw
    unfold driveStep
    by_cases hneed : d.phase.mDenominator ≤ d.phase.mIntegerPhase
    · have hb : d.phase.isWriteNeeded = true := by
        unfold PhaseState.isWriteNeeded
        exact decide_eq_true hneed
      rw [if_pos hb]
      rw [hD] at hneed
      refine ⟨hN, hD, ?_, ?_, ?_, hr, Nat.le_succ_of_le hw⟩
      · show d.reads + (d.writes + 1) = _
        omega
      · show (d.phase.mIntegerPhase - d.phase.mDenominator) + (d.writes + 1) * den
          + r0 * num = den + d.reads * num + w0 * den
        rw [hD, Nat.succ_mul]
        omega
      · show d.phase.mIntegerPhase - d.phase.mDenominator < den + num
        omega
    · have hb : ¬ (d.phase.isWriteNeeded = true) := by
        unfold PhaseState.isWriteNeeded
        simpa using hneed
      rw [if_neg hb]
      rw [hD] at hneed
      refine ⟨hN, hD, ?_, ?_, ?_, Nat.le_succ_of_le hr, hw⟩
      · show (d.reads + 1) + d.writes = _
        omega
      · show (d.phase.mIntegerPhase + d.phase.mNumerator) + d.writes * den + r0 * num
          = den + (d.reads + 1) * num + w0 * den
        rw [hN, Nat.succ_mul]
        omega
      · show d.phase.mIntegerPhase + d.phase.mNumerator < den + num
        rw [hN]
        omega

/-- One period: `num + den` steps from the accumulator at the denominator make `den`
reads and `num` writes and bring the phase state back. -/
theorem drive_period (num den r0 w0 : Nat) (hnum : 0 < num) :
    drive (num + den) ⟨⟨num, den, den⟩, r0, w0⟩ = ⟨⟨num, den, den⟩, r0 + den, w0 + num⟩ := by
  obtain ⟨hN, hD, hsum, hlin, hlt, -, -⟩ := drive_invariant num den r0 w0 hnum (num + den)
  generalize drive (num + den) ⟨⟨num, den, den⟩, r0, w0⟩ = d at hN hD hsum hlin hlt
  obtain ⟨⟨n2, d2, p⟩, r, w⟩ := d
  simp only at hN hD hsum hlin hlt
  subst hN hD
  have key : p + w * (d2 + n2) = d2 + (n2 + w0) * (d2 + n2) := by
    have h1 : ((p : ℤ) + w * d2 + r0 * n2 = d2 + r * n2 + w0 * d2) := by exact_mod_cast hlin
    have h2 : ((r : ℤ) + w = r0 + w0 + (n2 + d2)) := by exact_mod_cast hsum
    have h3 : ((p : ℤ) + w * (d2 + n2) = d2 + (n2 + w0) * (d2 + n2)) := by
      linear_combination h1 + (n2 : ℤ) * h2
    exact_mod_cast h3
  have hT : 0 < d2 + n2 := by omega
  have hp : p = d2 := by
    have h := congrArg (fun x => x % (d2 + n2)) key
    simp only [Nat.add_mul_mod_self_right] at h
    rwa [Nat.mod_eq_of_lt hlt, Nat.mod_eq_of_lt (by omega)] at h
  have hw : w = n2 + w0 := by
    rw [hp] at key
    exact Nat.eq_of_mul_eq_mul_right hT (Nat.add_left_cancel key)
  have hr : r = r0 + d2 := by omega
  rw [hp, hw, hr, Nat.add_comm n2 w0]

/-- After `m` periods the phase state is the initial one again and `m * den` reads and
`m * num` writes have been made. -/
theorem drive_periods (num den : Nat) (hnum : 0 < num) (m : Nat) :
    drive (m * (num + den)) ⟨⟨num, den, den⟩, 0, 0⟩ = ⟨⟨num, den, den⟩, m * den, m * num⟩ := by
  induction m with
  | zero => simp [drive_zero]
  | succ m ih =>
    rw [Nat.succ_mul, drive_add, ih, drive_period num den _ _ hnum, Nat.succ_mul,
      Nat.succ_mul]

/-- Within a period the phase state does not return to the initial one. -/
theorem drive_no_early_return (num den r0 w0 : Nat) (hnum : 0 < num) (hden : 0 < den)
    (hcop : Nat.Coprime num den) (j : Nat) (hj0 : 0 < j) (hj : j < num + den) :
    (drive j ⟨⟨num, den, den⟩, r0, w0⟩).phase ≠ ⟨num, den, den⟩ := by
  obtain ⟨-, -, hsum, hlin, -, hr, hw⟩ := drive_invariant num den r0 w0 hnum j
  generalize drive j ⟨⟨num, den, den⟩, r0, w0⟩ = d at hsum hlin hr hw
  intro hph
  have hp : d.phase.mIntegerPhase = den := by rw [hph]
  rw [hp] at hlin
  obtain ⟨R, hR⟩ := Nat.exists_eq_add_of_le hr
  obtain ⟨W, hW⟩ := Nat.exists_eq_add_of_le hw
  rw [hR, hW] at hlin hsum
  have hbal : W * den = R * num := by
    rw [Nat.add_mul, Nat.add_mul] at hlin
    omega
  have hdvd : den ∣ R := hcop.symm.dvd_of_dvd_mul_right ⟨W, by rw [← hbal, Nat.mul_comm]⟩
  obtain ⟨t, ht⟩ := hdvd
  rcases Nat.eq_zero_or_pos t with h0 | hpos
  · rw [h0, Nat.mul_zero] at ht
    rw [ht, Nat.zero_mul] at hbal
    have hW0 : W = 0 := by
      rcases Nat.mul_eq_zero.mp hbal with h | h
      · exact h
      · omega
    omega
  · have hRge : den ≤ R := by
      rw [ht]
      exact Nat.le_mul_of_pos_right den hpos
    have hWeq : W = t * num := by
      have h : W * den = (t * num) * den := by
        rw [hbal, ht]
        ring
      exact Nat.eq_of_mul_eq_mul_right hden h
    have hWge : num ≤ W := by
      rw [hWeq]
      exact Nat.le_mul_of_pos_left num hpos
    omega

/-- The phase state is the initial one exactly after whole periods. -/
theorem drive_returns_iff (num den : Nat) (hnum : 0 < num) (hden : 0 < den)
    (hcop : Nat.Coprime num den) (n : Nat) :
    (drive n ⟨⟨num, den, den⟩, 0, 0⟩).phase = ⟨num, den, den⟩ ↔ (num + den) ∣ n := by
  have hT : 0 < num + den := by omega
  constructor
  · intro h
    have hn : n = (n / (num + den)) * (num + den) + n % (num + den) := by
      rw [Nat.mul_comm]
      exact (Nat.div_add_mod n (num + den)).symm
    rw [hn, drive_add, drive_periods num den hnum] at h
    by_contra hdvd
    have hmod : 0 < n % (num + den) :=
      Nat.pos_of_ne_zero (fun h0 => hdvd (Nat.dvd_of_mod_eq_zero h0))
    exact drive_no_early_return num den _ _ hnum hden hcop _ hmod (Nat.mod_lt n hT) h
  · rintro ⟨m, rfl⟩
    rw [Nat.mul_comm, drive_periods num den hnum]

/-! ## Values of the IEEE 754 rounding -/

/-- The binary exponent of a rational, from its bounds. -/
theorem log_two_eq (x : ℚ) (e : ℤ) (hx : 0 < x) (h1 : (2 : ℚ) ^ e ≤ x)
    (h2 : x < (2 : ℚ) ^ (e + 1)) : Int.log 2 x = e := by
  have hle : e ≤ Int.log 2 x := (Int.zpow_le_iff_le_log (by norm_num) hx).mp h1
  have hlt : Int.log 2 x < e + 1 := (Int.lt_zpow_iff_log_lt (by norm_num) hx).mp h2
  omega

theorem roundToPrecision_of_log (bits : Nat) (x : ℚ) (e : ℤ) (hx : x ≠ 0)
    (he : Int.log 2 |x| = e) :
    roundToPrecision bits x =
      (roundHalfEven (x / (2 : ℚ) ^ (e - ((bits : ℤ) - 1))) : ℚ) *
        (2 : ℚ) ^ (e - ((bits : ℤ) - 1)) := by
  unfold roundToPrecision
  rw [if_neg hx, he]

theorem toFloat_neg_two : ieee.toFloat (ieee.toDouble (0 - ((2 : Nat) : ℚ))) = -2 := by
  have hd : ieee.toDouble (0 - ((2 : Nat) : ℚ)) = -2 := by
    unfold ieee
    dsimp only
    rw [roundToPrecision_of_log 53 _ 1 (by norm_num)
      (log_two_eq _ 1 (by norm_num) (by norm_num) (by norm_num))]
    unfold roundHalfEven
    norm_num
  rw [hd]
  unfold ieee
  dsimp only
  rw [roundToPrecision_of_log 24 _ 1 (by norm_num)
    (log_two_eq _ 1 (by norm_num) (by norm_num) (by norm_num))]
  unfold roundHalfEven
  norm_num

theorem toFloat_neg_two_add_one : ieee.toFloat (ieee.toDouble ((-2 : ℚ) + 1)) = -1 := by
  have hd : ieee.toDouble ((-2 : ℚ) + 1) = -1 := by
    unfold ieee
    dsimp only
    rw [roundToPrecision_of_log 53 _ 0 (by norm_num)
      (log_two_eq _ 0 (by norm_num) (by norm_num) (by norm_num))]
    unfold roundHalfEven
    norm_num
  rw [hd]
  unfold ieee
  dsimp only
  rw [roundToPrecision_of_log 24 _ 0 (by norm_num)
    (log_two_eq _ 0 (by norm_num) (by norm_num) (by norm_num))]
  unfold roundHalfEven
  norm_num

theorem toFloat_neg_one_add_one : ieee.toFloat (ieee.toDouble ((-1 : ℚ) + 1)) = 0 := by
  have hd : ieee.toDouble ((-1 : ℚ) + 1) = 0 := by
    unfold ieee
    dsimp only
    unfold roundToPrecision
    rw [if_pos (by norm_num)]
  rw [hd]
  unfold ieee
  dsimp only
  unfold roundToPrecision
  rw [if_pos rfl]

theorem toFloat_zero_add_one : ieee.toFloat (ieee.toDouble ((0 : ℚ) + 1)) = 1 := by
  have hd : ieee.toDouble ((0 : ℚ) + 1) = 1 := by
    unfold ieee
    dsimp only
    rw [roundToPrecision_of_log 53 _ 0 (by norm_num)
      (log_two_eq _ 0 (by norm_num) (by norm_num) (by norm_num))]
    unfold roundHalfEven
    norm_num
  rw [hd]
  unfold ieee
  dsimp only
  rw [roundToPrecision_of_log 24 _ 0 (by norm_num)
    (log_two_eq _ 0 (by norm_num) (by norm_num) (by norm_num))]
  unfold roundHalfEven
  norm_num

/-- `(float) (1.0f * M_PI)` is `13176795 / 2 ^ 22`. -/
theorem toFloat_pi : ieee.toFloat (ieee.toDouble ((1 : ℚ) * M_PI)) = 13176795 / 4194304 := by
  have hlog : Int.log 2 |(1 : ℚ) * M_PI| = 1 :=
    log_two_eq _ 1 (by unfold M_PI; norm_num) (by unfold M_PI; norm_num [abs_of_pos])
      (by unfold M_PI; norm_num [abs_of_pos])
  have hd : ieee.toDouble ((1 : ℚ) * M_PI) = M_PI := by
    unfold ieee
    dsimp only
    rw [roundToPrecision_of_log 53 _ 1 (by unfold M_PI; norm_num) hlog]
    unfold roundHalfEven M_PI
    norm_num
  rw [hd]
  unfold ieee
  dsimp only
  rw [one_mul] at hlog
  rw [roundToPrecision_of_log 24 _ 1 (by unfold M_PI; norm_num) hlog]
  unfold roundHalfEven M_PI
  norm_num

/-- The argument passed for tap 3 of the row of phase 0 with spread 2 in IEEE
arithmetic. -/
theorem radiansAt_ieee_example : radiansAt ieee M_PI 0 2 3 = 13176795 / 4194304 := by
  unfold radiansAt tapPhaseAt
  rw [Function.iterate_succ_apply', Function.iterate_succ_apply',
    Function.iterate_succ_apply', Function.iterate_zero_apply]
  rw [toFloat_neg_two, toFloat_neg_two_add_one, toFloat_neg_one_add_one,
    toFloat_zero_add_one, toFloat_pi]

theorem radiansAt_exact {F : Type} [LinearOrderedField F] (pi phase : F) (spread tap : Nat) :
    radiansAt exactArithmetic pi phase spread tap = (phase - spread + tap) * pi := by
  unfold radiansAt tapPhaseAt
  show (fun t : F => t + 1)^[tap] (phase - (spread : F)) * pi = _
  congr 1
  induction tap with
  | zero => simp
  | succ n ih =>
    rw [Function.iterate_succ_apply', ih]
    push_cast
    ring

theorem roundHalfEven_nonneg (q : ℚ) (h : 0 ≤ q) : 0 ≤ roundHalfEven q := by
  have hf : 0 ≤ ⌊q⌋ := Int.floor_nonneg.mpr h
  unfold roundHalfEven
  split_ifs <;> omega

theorem roundToPrecision_nonneg (bits : Nat) (x : ℚ) (h : 0 ≤ x) :
    0 ≤ roundToPrecision bits x := by
  unfold roundToPrecision
  split_ifs with h0
  · exact le_refl 0
  · apply mul_nonneg
    · exact_mod_cast roundHalfEven_nonneg _ (div_nonneg h (zpow_nonneg (by norm_num) _))
    · exact zpow_nonneg (by norm_num) _

/-- Rounding to `double` keeps non-negative values non-negative. -/
theorem ieee_toDouble_nonneg (x : ℚ) (h : 0 ≤ x) : 0 ≤ ieee.toDouble x :=
  roundToPrecision_nonneg 53 x h

/-! ## Claims on readFrame -/

/-- C1: for every state whose index ranges are in bounds, `readFrame` returns and writes to
every channel `c < C` of the output frame exactly the sum over the taps `i < N` of
`coefficients[q + i] * history[(w + N - i) * C + c]`, with `q` and `w` taken before the
call, accumulated as the code does: from `0.0`, for `i = 0, ..., N - 1`, with the addition
and multiplication of the sample type, of which no law is assumed (so the statement
holds of `float` arithmetic as of exact arithmetic).  The value mentions neither the
accumulator nor the output buffer, and the same values come out for any other accumulator
and output buffer of sufficient length. -/
theorem readFrame_computes_convolution {K : Type} [Zero K] [Add K] [Mul K]
    (s : PolyphaseResampler K)
    (frame : List K) (hb : InBounds s) (hf : s.mChannelCount ≤ frame.length) :
    ∃ t out, readFrame s frame = some (t, out) ∧
      (∀ c, c < s.mChannelCount → out[c]? = some ((List.range s.mNumTaps).foldl
        (fun acc i => acc + s.mCoefficients.getD (s.mCoefficientCursor + i) 0 *
          s.mX.getD ((s.mCursor + s.mNumTaps - i) * s.mChannelCount + c) 0) 0)) ∧
      ∀ acc2 frame2 : List K, s.mChannelCount ≤ acc2.length →
        s.mChannelCount ≤ frame2.length →
        ∃ t2 out2, readFrame { s with mSingleFrame := acc2 } frame2 = some (t2, out2) ∧
          ∀ c, c < s.mChannelCount → out2[c]? = out[c]? := by
  obtain ⟨acc, out, hread, -, -, hval, -⟩ := readFrame_fold_spec s frame hb hf
  refine ⟨_, out, hread, hval, ?_⟩
  intro acc2 frame2 hacc2 hf2
  obtain ⟨acc3, out2, hread2, -, -, hval2, -⟩ :=
    readFrame_fold_spec { s with mSingleFrame := acc2 } frame2
      ⟨hb.1, hb.2.1, hb.2.2.1, hacc2⟩ hf2
  refine ⟨_, out2, hread2, ?_⟩
  intro c hc
  rw [hval2 c hc, hval c hc]
  rfl

/-- Witness of C1 on `sampleState` with a three-entry output buffer. -/
theorem readFrame_computes_convolution_witness :
    InBounds sampleState ∧ sampleState.mChannelCount ≤ [0, 0, (5 : ℤ)].length ∧
    ∃ t out, readFrame sampleState [0, 0, 5] = some (t, out) ∧
      (∀ c, c < sampleState.mChannelCount → out[c]? =
        some ((List.range sampleState.mNumTaps).foldl
          (fun acc i => acc +
            sampleState.mCoefficients.getD (sampleState.mCoefficientCursor + i) 0 *
            sampleState.mX.getD
              ((sampleState.mCursor + sampleState.mNumTaps - i) * sampleState.mChannelCount
                + c) 0) 0)) ∧
      ∀ acc2 frame2 : List ℤ, sampleState.mChannelCount ≤ acc2.length →
        sampleState.mChannelCount ≤ frame2.length →
        ∃ t2 out2, readFrame { sampleState with mSingleFrame := acc2 } frame2 =
            some (t2, out2) ∧
          ∀ c, c < sampleState.mChannelCount → out2[c]? = out[c]? :=
  ⟨by decide, by decide,
    readFrame_computes_convolution sampleState [0, 0, 5] (by decide) (by decide)⟩

/-- C10: `readFrame` leaves the coefficient table (its length and every entry), the
history buffer, the write cursor, the numerator, the denominator and the integer phase
accumulator unchanged, as well as the tap and channel counts: whenever it returns, in any
state, the new state differs from the old one at most in the accumulator and the
coefficient cursor; and in every state whose index ranges are in bounds it does return,
changing of the output buffer only the first `channelCount` entries. -/
theorem readFrame_modifies_only_cursor_and_accumulator {K : Type} [Semiring K]
    (s : PolyphaseResampler K) (frame : List K) :
    (∀ t out, readFrame s frame = some (t, out) →
      t.mCoefficients = s.mCoefficients ∧
      t.mCoefficients.length = s.mCoefficients.length ∧
      (∀ i : Nat, t.mCoefficients[i]? = s.mCoefficients[i]?) ∧
      t.mX = s.mX ∧ t.mCursor = s.mCursor ∧ t.mNumerator = s.mNumerator ∧
      t.mDenominator = s.mDenominator ∧ t.mIntegerPhase = s.mIntegerPhase ∧
      t.mNumTaps = s.mNumTaps ∧ t.mChannelCount = s.mChannelCount) ∧
    (InBounds s → s.mChannelCount ≤ frame.length →
      ∃ t out, readFrame s frame = some (t, out) ∧ out.length = frame.length ∧
        ∀ c, s.mChannelCount ≤ c → out[c]? = frame[c]?) := by
  constructor
  · intro t out h
    have ht := readFrame_frame s t frame out h
    rw [ht]
    exact ⟨rfl, rfl, fun _ => rfl, rfl, rfl, rfl, rfl, rfl, rfl, rfl⟩
  · intro hb hf
    obtain ⟨acc, out, hread, -, hol, -, hrest⟩ := readFrame_spec s frame hb hf
    exact ⟨_, out, hread, hol, hrest⟩

/-- Witness of C10: the call of `readFrame` on `sampleState` returns, and leaves the
table, the history, the write cursor and the phase state as they were. -/
theorem readFrame_modifies_only_cursor_and_accumulator_witness :
    readFrame sampleState [0, 0, 5] = some (sampleStateRead, [57000, 68000, 5]) ∧
    sampleStateRead.mCoefficients = sampleState.mCoefficients ∧
    sampleStateRead.mX = sampleState.mX ∧
    sampleStateRead.mIntegerPhase = sampleState.mIntegerPhase :=
  ⟨by decide,
    ((readFrame_modifies_only_cursor_and_accumulator sampleState [0, 0, 5]).1
      sampleStateRead [57000, 68000, 5] (by decide)).1,
    by decide, by decide⟩

/-! ## Claims on construction and coefficient generation -/

/-- C4: for every tap count that is a multiple of 4 and every pair of positive rates with
reduced ratio `(num, den)`, after construction the coefficient table has exactly `den`
rows of `numTaps` entries.  Whenever `generateCoefficients` returns (as it does when
`numTaps * den` fits in an `int`), construction yields the object it returns; the length
of the table is `numTaps * den`; the indices written by `generateCoefficients` are
`0, 1, ..., numTaps * den - 1` in this order, so every index below `numTaps * den` is
written exactly once and no other index is written; and the write number `tap` of row `i`
goes to index `i * numTaps + tap`, which lies in `[i * numTaps, (i + 1) * numTaps)`. -/
theorem coefficient_table_shape {F : Type} [LinearOrderedField F] [FloorRing F]
    (fp : FloatingPoint F) (pi : F) (calculateWindowedSinc : F → Nat → F)
    (numTaps inputRate outputRate channelCount : Nat) (h4 : numTaps % 4 = 0)
    (_hin : 0 < inputRate) (_hout : 0 < outputRate) :
    (numTaps * (IntegerRatio.reduce inputRate outputRate).2 < 2 ^ 31 →
      ∃ s written, generateCoefficients fp pi calculateWindowedSinc
        (MultiChannelResampler.init numTaps channelCount) inputRate outputRate
          = some (s, written)) ∧
    ∀ s written,
      generateCoefficients fp pi calculateWindowedSinc
        (MultiChannelResampler.init numTaps channelCount) inputRate outputRate
          = some (s, written) →
      PolyphaseResampler.construct fp pi calculateWindowedSinc numTaps inputRate outputRate
        channelCount = Except.ok s ∧
      s.mDenominator = (IntegerRatio.reduce inputRate outputRate).2 ∧
      s.mCoefficients.length = numTaps * s.mDenominator ∧
      written = List.range (numTaps * s.mDenominator) ∧
      (∀ j, List.count j written = if j < numTaps * s.mDenominator then 1 else 0) ∧
      ∀ i tap, i < s.mDenominator → tap < numTaps →
        i * numTaps ≤ i * numTaps + tap ∧ i * numTaps + tap < (i + 1) * numTaps ∧
        written[i * numTaps + tap]? = some (i * numTaps + tap) := by
  constructor
  · intro hfit
    obtain ⟨table, hgen, -, -⟩ := generateCoefficients_spec fp pi calculateWindowedSinc
      (MultiChannelResampler.init numTaps channelCount : PolyphaseResampler F)
      inputRate outputRate hfit
    exact ⟨_, _, hgen⟩
  intro s written hsome
  have hfit := generateCoefficients_fits fp pi calculateWindowedSinc _ _ _ _ hsome
  obtain ⟨table, hgen, hlen, -⟩ := generateCoefficients_spec fp pi calculateWindowedSinc
    (MultiChannelResampler.init numTaps channelCount : PolyphaseResampler F)
    inputRate outputRate hfit
  have hcon : PolyphaseResampler.construct fp pi calculateWindowedSinc numTaps inputRate
      outputRate channelCount = Except.ok s := by
    unfold PolyphaseResampler.construct
    simp only [h4, if_true]
    rw [hsome]
  rw [hgen] at hsome
  have hpair := Option.some.inj hsome
  have hs := congrArg Prod.fst hpair
  have hw := congrArg Prod.snd hpair
  simp only at hs hw
  subst hs hw
  refine ⟨hcon, rfl, hlen, rfl, ?_, ?_⟩
  · intro j
    show List.count j (List.range (numTaps * (IntegerRatio.reduce inputRate outputRate).2))
      = if j < numTaps * (IntegerRatio.reduce inputRate outputRate).2 then 1 else 0
    split
    · next hj => exact List.count_eq_one_of_mem (List.nodup_range _) (List.mem_range.mpr hj)
    · next hj => exact List.count_eq_zero_of_not_mem (fun hm => hj (List.mem_range.mp hm))
  · intro i tap hi htap
    have hlt : i * numTaps + tap < numTaps * (IntegerRatio.reduce inputRate outputRate).2 :=
      lt_of_lt_of_le (by omega) (row_fits numTaps _ i hi)
    refine ⟨Nat.le_add_right _ _, by rw [Nat.succ_mul]; omega, ?_⟩
    show (List.range (numTaps * (IntegerRatio.reduce inputRate outputRate).2))[_]? = _
    rw [List.getElem?_range hlt]

/-- Witness of C4: 4 taps, 48000 to 44100, two channels, in IEEE arithmetic:
`generateCoefficients` returns. -/
theorem coefficient_table_shape_witness :
    ∃ s written, generateCoefficients ieee M_PI passedArgument
      (MultiChannelResampler.init 4 2) 48000 44100 = some (s, written) :=
  (coefficient_table_shape ieee M_PI passedArgument 4 48000 44100 2 (by decide) (by decide)
    (by decide)).1 (by decide)

/-- C5 (as the code behaves): the constructor does not compare the table size with
`kMaxCoefficients`.  For every tap count and pair of positive rates whose reduced
denominator gives `numTaps * denominator > 8192`, with the product within the range of an
`int`, construction fails exactly when the tap count is not a multiple of 4; when it is,
construction yields an instance whose table has `numTaps * denominator` entries, more than
`kMaxCoefficients`. -/
theorem construct_ignores_kMaxCoefficients {F : Type} [LinearOrderedField F] [FloorRing F]
    (fp : FloatingPoint F) (pi : F) (calculateWindowedSinc : F → Nat → F)
    (numTaps inputRate outputRate channelCount : Nat) (_hin : 0 < inputRate)
    (_hout : 0 < outputRate)
    (hbig : kMaxCoefficients < numTaps * (IntegerRatio.reduce inputRate outputRate).2)
    (hfit : numTaps * (IntegerRatio.reduce inputRate outputRate).2 < 2 ^ 31) :
    (numTaps % 4 ≠ 0 →
      PolyphaseResampler.construct fp pi calculateWindowedSinc numTaps inputRate outputRate
        channelCount = Except.error ConstructionFailure.tapCountAssertion) ∧
    (numTaps % 4 = 0 →
      ∃ s, PolyphaseResampler.construct fp pi calculateWindowedSinc numTaps inputRate
          outputRate channelCount = Except.ok s ∧
        s.mCoefficients.length = numTaps * (IntegerRatio.reduce inputRate outputRate).2 ∧
        kMaxCoefficients < s.mCoefficients.length) := by
  constructor
  · intro h4
    exact construct_fails fp pi calculateWindowedSinc numTaps inputRate outputRate
      channelCount h4
  · intro h4
    obtain ⟨table, hcon, hlen, -⟩ := construct_spec fp pi calculateWindowedSinc numTaps
      inputRate outputRate channelCount h4 hfit
    exact ⟨_, hcon, hlen, by rw [hlen]; exact hbig⟩

/-- Witness of the amended C5: 64 taps, 48000 to 44100. -/
theorem construct_ignores_kMaxCoefficients_witness :
    kMaxCoefficients < 64 * (IntegerRatio.reduce 48000 44100).2 ∧
    ∃ s, PolyphaseResampler.construct ieee M_PI passedArgument 64 48000 44100 2
        = Except.ok s ∧
      s.mCoefficients.length = 64 * (IntegerRatio.reduce 48000 44100).2 ∧
      kMaxCoefficients < s.mCoefficients.length :=
  ⟨by decide,
    (construct_ignores_kMaxCoefficients ieee M_PI passedArgument 64 48000 44100 2
      (by decide) (by decide) (by decide) (by decide)).2 (by decide)⟩

/-- Counterexample to C5 as stated: with 64 taps and rates 48000 to 44100 the reduced
ratio is 160 : 147, the table would have 9408 > 8192 entries, and construction yields an
instance with that table. -/
theorem construct_oversized_table_succeeds :
    IntegerRatio.reduce 48000 44100 = (160, 147) ∧
    kMaxCoefficients < 64 * 147 ∧
    ∃ s, PolyphaseResampler.construct ieee M_PI passedArgument 64 48000 44100 2
        = Except.ok s ∧ s.mCoefficients.length = 9408 := by
  have hred : IntegerRatio.reduce 48000 44100 = (160, 147) := by decide
  refine ⟨hred, by decide, ?_⟩
  obtain ⟨table, hcon, hlen, -⟩ := construct_spec ieee M_PI passedArgument 64 48000 44100 2
    (by decide) (by decide)
  refine ⟨_, hcon, ?_⟩
  show table.length = 9408
  rw [hlen, hred]
  rfl

/-- C3 (as the code behaves): for every tap count that is a multiple of 4 and positive
rates, with `spread = numTaps / 2` and `p i` the phase of step `i` (`p 0 = 0`,
`p (i + 1) = p i + inputRate / outputRate` wrapped into `[0, 1)`), in every constructed
object and for every phase step `i < denominator` and every `tap < numTaps` the
coefficient stored at index `i * numTaps + tap` is
`calculateWindowedSinc((p i - spread + tap) * M_PI, spread)`: the offset is converted to
radians before the prototype is evaluated.  The offset and the product are computed as in
the code (`float tapPhase = phase - spread`, `tapPhase += 1.0`,
`float radians = tapPhase * M_PI`); without rounding the argument is the exact product
`(p i - spread + tap) * pi`, and then the phase of the code is the phase sequence of the
specification.  Every `p i` satisfies `0 ≤ p i < 1`. -/
theorem coefficients_sample_prototype_in_radians {F : Type} [LinearOrderedField F]
    [FloorRing F] (fp : FloatingPoint F) (pi : F) (calculateWindowedSinc : F → Nat → F)
    (numTaps inputRate outputRate channelCount : Nat) (h4 : numTaps % 4 = 0)
    (_hin : 0 < inputRate) (_hout : 0 < outputRate)
    (hfp : ∀ x : F, 0 ≤ x → 0 ≤ fp.toDouble x) :
    (numTaps * (IntegerRatio.reduce inputRate outputRate).2 < 2 ^ 31 →
      ∃ s, PolyphaseResampler.construct fp pi calculateWindowedSinc numTaps inputRate
        outputRate channelCount = Except.ok s) ∧
    (∀ s, PolyphaseResampler.construct fp pi calculateWindowedSinc numTaps inputRate
        outputRate channelCount = Except.ok s →
      s.mDenominator = (IntegerRatio.reduce inputRate outputRate).2 ∧
      ∀ i tap, i < s.mDenominator → tap < numTaps →
        s.mCoefficients[i * numTaps + tap]? = some (calculateWindowedSinc
          (radiansAt fp pi (generationPhase fp inputRate outputRate i) (numTaps / 2) tap)
          (numTaps / 2))) ∧
    (∀ phase : F, ∀ tap,
      radiansAt fp pi phase (numTaps / 2) tap =
        fp.toFloat (fp.toDouble (tapPhaseAt fp phase (numTaps / 2) tap * pi)) ∧
      tapPhaseAt fp phase (numTaps / 2) 0 =
        fp.toFloat (fp.toDouble (phase - ((numTaps / 2 : Nat) : F))) ∧
      tapPhaseAt fp phase (numTaps / 2) (tap + 1) =
        fp.toFloat (fp.toDouble (tapPhaseAt fp phase (numTaps / 2) tap + 1)) ∧
      radiansAt exactArithmetic pi phase (numTaps / 2) tap =
        (phase - ((numTaps / 2 : Nat) : F) + (tap : F)) * pi) ∧
    ∀ i, (0 : F) ≤ generationPhase fp inputRate outputRate i ∧
      generationPhase fp inputRate outputRate i < (1 : F) ∧
      generationPhase exactArithmetic inputRate outputRate i =
        (phaseSequence inputRate outputRate i : F) := by
  refine ⟨?_, ?_, ?_, ?_⟩
  · intro hfit
    obtain ⟨table, hcon, -, -⟩ := construct_spec fp pi calculateWindowedSinc numTaps
      inputRate outputRate channelCount h4 hfit
    exact ⟨_, hcon⟩
  · intro s hs
    obtain ⟨-, hfit⟩ := construct_ok_inv fp pi calculateWindowedSinc _ _ _ _ s hs
    obtain ⟨table, hcon, -, hrows⟩ := construct_spec fp pi calculateWindowedSinc numTaps
      inputRate outputRate channelCount h4 hfit
    rw [hcon] at hs
    have hs2 := Except.ok.inj hs
    subst hs2
    exact ⟨rfl, hrows⟩
  · intro phase tap
    refine ⟨rfl, rfl, ?_, radiansAt_exact pi phase _ tap⟩
    unfold tapPhaseAt
    rw [Function.iterate_succ_apply']
  · intro i
    obtain ⟨h0, h1⟩ := generationPhase_bounds fp hfp inputRate outputRate i
    exact ⟨h0, h1, generationPhase_eq_phaseSequence _ _ i⟩

/-- Witness of the amended C3: 4 taps, 48000 to 44100, two channels, in IEEE arithmetic: a
resampler is constructed. -/
theorem coefficients_sample_prototype_in_radians_witness :
    ∃ s, PolyphaseResampler.construct ieee M_PI passedArgument 4 48000 44100 2
      = Except.ok s :=
  (coefficients_sample_prototype_in_radians ieee M_PI passedArgument 4 48000 44100 2
    (by decide) (by decide) (by decide) ieee_toDouble_nonneg).1 (by decide)

/-- Counterexample to C3 as stated: with 4 taps and rates 1 to 1 (one row, phase 0,
spread 2), in IEEE arithmetic, the entry at index `0 * 4 + 3` is the prototype called with
`(float) (1.0f * M_PI) = 13176795 / 4194304`, not with the offset `0 - 2 + 3 = 1`. -/
theorem coefficient_argument_is_not_the_offset :
    ∃ s, PolyphaseResampler.construct ieee M_PI passedArgument 4 1 1 1 = Except.ok s ∧
      s.mCoefficients[0 * 4 + 3]? = some (passedArgument (13176795 / 4194304) 2) ∧
      s.mCoefficients[0 * 4 + 3]? ≠ some (passedArgument
        (phaseSequence 1 1 0 - ((4 / 2 : Nat) : ℚ) + ((3 : Nat) : ℚ)) (4 / 2)) := by
  have hden : (IntegerRatio.reduce 1 1).2 = 1 := by decide
  obtain ⟨table, hcon, -, hrows⟩ := construct_spec ieee M_PI passedArgument 4 1 1 1
    (by decide) (by rw [hden]; decide)
  have h3 := hrows 0 3 (by rw [hden]; decide) (by decide)
  have hval : table[0 * 4 + 3]? = some (passedArgument (13176795 / 4194304) 2) := by
    rw [h3]
    show some (passedArgument (radiansAt ieee M_PI 0 2 3) 2) = _
    rw [radiansAt_ieee_example]
  refine ⟨_, hcon, hval, ?_⟩
  show table[0 * 4 + 3]? ≠ _
  rw [hval]
  simp [passedArgument, phaseSequence]
  norm_num

/-- C8: in exact arithmetic, for positive rates with reduced ratio `(num, den)`, the phase
of `generateCoefficients` at step `i` is `((i * num) mod den) / den` for every `i`; the
phases of the steps `0 .. den - 1` are pairwise distinct, the phase after `den` steps is
again 0, and the phase of step `j` is the phase of row `j mod den`. -/
theorem generation_phase_exact {F : Type} [LinearOrderedField F] [FloorRing F]
    (inputRate outputRate : Nat) (_hin : 0 < inputRate) (hout : 0 < outputRate) :
    (∀ i, (generationPhase exactArithmetic inputRate outputRate i : F) =
      (((i * (IntegerRatio.reduce inputRate outputRate).1) %
          (IntegerRatio.reduce inputRate outputRate).2 : Nat) : F) /
        ((IntegerRatio.reduce inputRate outputRate).2 : F)) ∧
    (∀ i j, i < (IntegerRatio.reduce inputRate outputRate).2 →
      j < (IntegerRatio.reduce inputRate outputRate).2 →
      (generationPhase exactArithmetic inputRate outputRate i : F) =
        generationPhase exactArithmetic inputRate outputRate j →
      i = j) ∧
    (generationPhase exactArithmetic inputRate outputRate
      (IntegerRatio.reduce inputRate outputRate).2 : F) = 0 ∧
    ∀ j, (generationPhase exactArithmetic inputRate outputRate j : F) =
      generationPhase exactArithmetic inputRate outputRate
        (j % (IntegerRatio.reduce inputRate outputRate).2) := by
  have hd := reduce_den_pos inputRate outputRate hout
  have hdF : (((IntegerRatio.reduce inputRate outputRate).2 : Nat) : F) ≠ 0 :=
    Nat.cast_ne_zero.mpr hd.ne'
  have hclosed : ∀ i, (generationPhase exactArithmetic inputRate outputRate i : F) =
      (((i * (IntegerRatio.reduce inputRate outputRate).1) %
          (IntegerRatio.reduce inputRate outputRate).2 : Nat) : F) /
        ((IntegerRatio.reduce inputRate outputRate).2 : F) := by
    intro i
    rw [generationPhase_eq_phaseSequence]
    exact phaseSequence_closed_form inputRate outputRate hout i
  refine ⟨hclosed, ?_, ?_, ?_⟩
  · intro i j hi hj hij
    rw [hclosed i, hclosed j, div_left_inj' hdF] at hij
    have hmod : i * (IntegerRatio.reduce inputRate outputRate).1 ≡
        j * (IntegerRatio.reduce inputRate outputRate).1
          [MOD (IntegerRatio.reduce inputRate outputRate).2] := by
      exact_mod_cast hij
    have hcop := (reduce_coprime inputRate outputRate hout).symm
    have hij2 := Nat.ModEq.cancel_right_of_coprime hcop hmod
    unfold Nat.ModEq at hij2
    rwa [Nat.mod_eq_of_lt hi, Nat.mod_eq_of_lt hj] at hij2
  · rw [hclosed, Nat.mul_mod_right]
    simp
  · intro j
    rw [hclosed j, hclosed (j % _), Nat.mod_mul_mod]

/-- Witness of C8: 48000 to 44100 over the rationals. -/
theorem generation_phase_exact_witness :
    (generationPhase exactArithmetic 48000 44100 (IntegerRatio.reduce 48000 44100).2 : ℚ)
      = 0 :=
  (generation_phase_exact 48000 44100 (by decide) (by decide)).2.2.1

/-! ## Claims on the cursor and the phase state -/

/-- C7: in every state reachable from a constructed resampler (`numTaps > 0`, a multiple
of 4, positive rates, hence `denominator > 0`; one is constructed whenever
`numTaps * denominator` fits in an `int`) by any number of `readFrame` calls, the
coefficient cursor is a multiple of `numTaps` and lies in `[0, numTaps * denominator)`;
every `readFrame` call maps the cursor `q` to `(q + numTaps) mod (numTaps * denominator)`,
and it does return for every output buffer of at least `channelCount` entries. -/
theorem coefficient_cursor_invariant {F : Type} [LinearOrderedField F] [FloorRing F]
    (fp : FloatingPoint F) (pi : F) (calculateWindowedSinc : F → Nat → F)
    (numTaps inputRate outputRate channelCount : Nat) (hN : 0 < numTaps)
    (h4 : numTaps % 4 = 0) (_hin : 0 < inputRate) (hout : 0 < outputRate) :
    (numTaps * (IntegerRatio.reduce inputRate outputRate).2 < 2 ^ 31 →
      ∃ s0, PolyphaseResampler.construct fp pi calculateWindowedSinc numTaps inputRate
        outputRate channelCount = Except.ok s0) ∧
    ∀ s0, PolyphaseResampler.construct fp pi calculateWindowedSinc numTaps inputRate
        outputRate channelCount = Except.ok s0 →
      s0.mDenominator = (IntegerRatio.reduce inputRate outputRate).2 ∧
      0 < s0.mDenominator ∧
      ∀ s, ReachableByReads s0 s →
        numTaps ∣ s.mCoefficientCursor ∧
        s.mCoefficientCursor < numTaps * s0.mDenominator ∧
        s.mCoefficients.length = numTaps * s0.mDenominator ∧
        (∀ frame t out, readFrame s frame = some (t, out) →
          t.mCoefficientCursor =
            (s.mCoefficientCursor + numTaps) % (numTaps * s0.mDenominator)) ∧
        ∀ frame : List F, channelCount ≤ frame.length →
          ∃ t out, readFrame s frame = some (t, out) := by
  have hden := reduce_den_pos inputRate outputRate hout
  constructor
  · intro hfit
    obtain ⟨table, hcon, -, -⟩ := construct_spec fp pi calculateWindowedSinc numTaps
      inputRate outputRate channelCount h4 hfit
    exact ⟨_, hcon⟩
  intro s0 hs0
  obtain ⟨-, hfit⟩ := construct_ok_inv fp pi calculateWindowedSinc _ _ _ _ s0 hs0
  obtain ⟨table, hcon, hlen, -⟩ := construct_spec fp pi calculateWindowedSinc numTaps
    inputRate outputRate channelCount h4 hfit
  rw [hcon] at hs0
  have hs0eq := Except.ok.inj hs0
  subst hs0eq
  refine ⟨rfl, hden, ?_⟩
  intro s hreach
  obtain ⟨hs, hal, r, hr, hq⟩ := reachable_invariant _
    (IntegerRatio.reduce inputRate outputRate).2 hden hlen rfl s hreach
  have hq2 : s.mCoefficientCursor = r * numTaps := hq
  have hT : s.mCoefficients.length = numTaps * (IntegerRatio.reduce inputRate outputRate).2 := by
    rw [hs]
    exact hlen
  have hNs : s.mNumTaps = numTaps := by rw [hs]; rfl
  have hCs : s.mChannelCount = channelCount := by rw [hs]; rfl
  have hfit := row_fits numTaps _ r hr
  refine ⟨⟨r, by rw [hq2, Nat.mul_comm]⟩, ?_, hT, ?_, ?_⟩
  · rw [hq2]
    exact lt_of_lt_of_le (by omega) hfit
  · intro frame t out hread
    have ht := readFrame_frame s t frame out hread
    rw [ht]
    show (s.mCoefficientCursor + s.mNumTaps) % s.mCoefficients.length = _
    rw [hNs, hT]
  · intro frame hf
    have hb : InBounds s := by
      refine ⟨?_, ?_, ?_, ?_⟩
      · rw [hT, hNs, hq2]
        exact hfit
      · rw [hT]
        exact Nat.mul_pos hN hden
      · rw [hs]
        exact init_history_fits numTaps channelCount hN
      · rw [hal, hCs]
        show channelCount ≤ (List.replicate channelCount (0 : F)).length
        rw [List.length_replicate]
    obtain ⟨acc, out, hread, -⟩ := readFrame_spec s frame hb (by rw [hCs]; exact hf)
    exact ⟨_, out, hread⟩

/-- Witness of C7: 4 taps, 48000 to 44100, two channels: a resampler is constructed. -/
theorem coefficient_cursor_invariant_witness :
    ∃ s0, PolyphaseResampler.construct ieee M_PI passedArgument 4 48000 44100 2
      = Except.ok s0 :=
  (coefficient_cursor_invariant ieee M_PI passedArgument 4 48000 44100 2 (by decide)
    (by decide) (by decide) (by decide)).1 (by decide)

/-- C9 (as the code behaves): immediately after construction (which succeeds whenever
`numTaps * denominator` fits in an `int`), for every pair of positive rates, the integer
phase accumulator equals the denominator, which is positive; so it lies in
`[0, denominator]` but not in `[0, denominator)`.  `readFrame` does not touch it:
in every state reachable by `readFrame` calls it still equals the denominator. -/
theorem integer_phase_starts_at_denominator {F : Type} [LinearOrderedField F]
    [FloorRing F] (fp : FloatingPoint F) (pi : F) (calculateWindowedSinc : F → Nat → F)
    (numTaps inputRate outputRate channelCount : Nat) (h4 : numTaps % 4 = 0)
    (_hin : 0 < inputRate) (hout : 0 < outputRate) :
    (numTaps * (IntegerRatio.reduce inputRate outputRate).2 < 2 ^ 31 →
      ∃ s0, PolyphaseResampler.construct fp pi calculateWindowedSinc numTaps inputRate
        outputRate channelCount = Except.ok s0) ∧
    ∀ s0, PolyphaseResampler.construct fp pi calculateWindowedSinc numTaps inputRate
        outputRate channelCount = Except.ok s0 →
      s0.mNumerator = (IntegerRatio.reduce inputRate outputRate).1 ∧
      s0.mDenominator = (IntegerRatio.reduce inputRate outputRate).2 ∧
      0 < s0.mDenominator ∧
      s0.mIntegerPhase = s0.mDenominator ∧
      ∀ s, ReachableByReads s0 s →
        s.mDenominator = s0.mDenominator ∧ s.mIntegerPhase = s.mDenominator ∧
        0 ≤ s.mIntegerPhase ∧ s.mIntegerPhase ≤ s.mDenominator ∧
        ¬ s.mIntegerPhase < s.mDenominator := by
  have hden := reduce_den_pos inputRate outputRate hout
  constructor
  · intro hfit
    obtain ⟨table, hcon, -, -⟩ := construct_spec fp pi calculateWindowedSinc numTaps
      inputRate outputRate channelCount h4 hfit
    exact ⟨_, hcon⟩
  intro s0 hs0
  obtain ⟨-, hfit⟩ := construct_ok_inv fp pi calculateWindowedSinc _ _ _ _ s0 hs0
  obtain ⟨table, hcon, hlen, -⟩ := construct_spec fp pi calculateWindowedSinc numTaps
    inputRate outputRate channelCount h4 hfit
  rw [hcon] at hs0
  have hs0eq := Except.ok.inj hs0
  subst hs0eq
  refine ⟨rfl, rfl, hden, rfl, ?_⟩
  intro s hreach
  obtain ⟨hs, -, -⟩ := reachable_invariant _
    (IntegerRatio.reduce inputRate outputRate).2 hden hlen rfl s hreach
  have hD : s.mDenominator = (IntegerRatio.reduce inputRate outputRate).2 := by
    rw [hs]
  have hP : s.mIntegerPhase = (IntegerRatio.reduce inputRate outputRate).2 := by
    rw [hs]
  refine ⟨hD, by rw [hP, hD], Nat.zero_le _, by rw [hP, hD], ?_⟩
  rw [hP, hD]
  exact Nat.lt_irrefl _

/-- Witness of the amended C9: 4 taps, 48000 to 44100, two channels: a resampler is
constructed. -/
theorem integer_phase_starts_at_denominator_witness :
    ∃ s0, PolyphaseResampler.construct ieee M_PI passedArgument 4 48000 44100 2
      = Except.ok s0 :=
  (integer_phase_starts_at_denominator ieee M_PI passedArgument 4 48000 44100 2 (by decide)
    (by decide) (by decide)).1 (by decide)

/-- Counterexample to C9 as stated: after construction with 4 taps and rates 48000 to
44100 the integer phase accumulator is 147, the denominator, which is not in
`[0, 147)`. -/
theorem integer_phase_not_below_denominator :
    ∃ s0, PolyphaseResampler.construct ieee M_PI passedArgument 4 48000 44100 2
        = Except.ok s0 ∧
      s0.mDenominator = 147 ∧ s0.mIntegerPhase = 147 ∧
      ¬ (0 ≤ s0.mIntegerPhase ∧ s0.mIntegerPhase < s0.mDenominator) := by
  obtain ⟨table, hcon, -, -⟩ := construct_spec ieee M_PI passedArgument 4 48000 44100 2
    (by decide) (by decide)
  have hred : (IntegerRatio.reduce 48000 44100).2 = 147 := by decide
  refine ⟨_, hcon, hred, hred, ?_⟩
  show ¬ (0 ≤ (IntegerRatio.reduce 48000 44100).2 ∧
    (IntegerRatio.reduce 48000 44100).2 < (IntegerRatio.reduce 48000 44100).2)
  rw [hred]
  decide

/-- C2: rows are consumed in the order they were generated.  In every freshly constructed
resampler (`numTaps > 0` a multiple of 4, positive rates with reduced ratio `(num, den)`;
one is constructed whenever `numTaps * den` fits in an `int`) the coefficient cursor is 0
and the table entry `r * numTaps + tap` is the value that `generateCoefficients` computed
at its phase step `r` for the tap `tap`.  For every state that holds this table (its
entries carried into the sample type by `embed`) with the cursor at 0, whatever its
history buffer, write cursor and accumulator hold within bounds (the fresh ones are), and
for every `k`, the first `k` calls of `readFrame` return and leave the cursor at
`r * numTaps` with `r = k mod den`; the `(k + 1)`-th call then convolves the history with
the table entries `r * numTaps + tap`, `tap = 0 .. numTaps - 1`, in tap order (a left fold
with the operations of the sample type, of which no law is assumed), and these entries
are the values generated at phase step `r`. -/
theorem rows_consumed_in_generation_order {F : Type} [LinearOrderedField F] [FloorRing F]
    {K : Type} [Zero K] [Add K] [Mul K] (embed : F → K)
    (fp : FloatingPoint F) (pi : F) (calculateWindowedSinc : F → Nat → F)
    (numTaps inputRate outputRate channelCount : Nat) (hN : 0 < numTaps)
    (h4 : numTaps % 4 = 0) (_hin : 0 < inputRate) (hout : 0 < outputRate) :
    (numTaps * (IntegerRatio.reduce inputRate outputRate).2 < 2 ^ 31 →
      ∃ s0, PolyphaseResampler.construct fp pi calculateWindowedSinc numTaps inputRate
        outputRate channelCount = Except.ok s0) ∧
    ∀ s0, PolyphaseResampler.construct fp pi calculateWindowedSinc numTaps inputRate
        outputRate channelCount = Except.ok s0 →
      s0.mCoefficientCursor = 0 ∧ s0.mNumTaps = numTaps ∧
      s0.mChannelCount = channelCount ∧
      s0.mDenominator = (IntegerRatio.reduce inputRate outputRate).2 ∧
      ((s0.mCursor + numTaps + 1) * channelCount ≤ s0.mX.length ∧
        channelCount ≤ s0.mSingleFrame.length) ∧
      (∀ r tap, r < s0.mDenominator → tap < numTaps →
        s0.mCoefficients[r * numTaps + tap]? = some (calculateWindowedSinc
          (radiansAt fp pi (generationPhase fp inputRate outputRate r) (numTaps / 2) tap)
          (numTaps / 2))) ∧
      ∀ (s : PolyphaseResampler K) (frame : List K),
        s.mNumTaps = numTaps → s.mChannelCount = channelCount →
        s.mCoefficients = s0.mCoefficients.map embed →
        s.mCoefficientCursor = 0 →
        (s.mCursor + s.mNumTaps + 1) * s.mChannelCount ≤ s.mX.length →
        s.mChannelCount ≤ s.mSingleFrame.length → s.mChannelCount ≤ frame.length →
        ∀ k, ∃ sk fk,
          readFrames k s frame = some (sk, fk) ∧
          sk.mCoefficientCursor = (k % s0.mDenominator) * numTaps ∧
          sk.mCoefficients = s.mCoefficients ∧
          (∃ t out, readFrame sk fk = some (t, out) ∧
            ∀ c, c < channelCount → out[c]? = some ((List.range numTaps).foldl
              (fun acc tap => acc +
                s.mCoefficients.getD ((k % s0.mDenominator) * numTaps + tap) 0 *
                  s.mX.getD ((s.mCursor + numTaps - tap) * channelCount + c) 0) 0)) ∧
          ∀ tap, tap < numTaps →
            s.mCoefficients[(k % s0.mDenominator) * numTaps + tap]? =
              some (embed (calculateWindowedSinc
                (radiansAt fp pi
                  (generationPhase fp inputRate outputRate (k % s0.mDenominator))
                  (numTaps / 2) tap) (numTaps / 2))) := by
  have hden := reduce_den_pos inputRate outputRate hout
  constructor
  · intro hfit
    obtain ⟨table, hcon, -, -⟩ := construct_spec fp pi calculateWindowedSinc numTaps
      inputRate outputRate channelCount h4 hfit
    exact ⟨_, hcon⟩
  intro s0 hs0
  obtain ⟨-, hfit⟩ := construct_ok_inv fp pi calculateWindowedSinc _ _ _ _ s0 hs0
  obtain ⟨table, hcon, hlen, hrows⟩ := construct_spec fp pi calculateWindowedSinc numTaps
    inputRate outputRate channelCount h4 hfit
  rw [hcon] at hs0
  have hs0eq := Except.ok.inj hs0
  subst hs0eq
  refine ⟨rfl, rfl, rfl, rfl, ⟨init_history_fits numTaps channelCount hN, ?_⟩, hrows, ?_⟩
  · show channelCount ≤ (List.replicate channelCount (0 : F)).length
    rw [List.length_replicate]
  intro s frame hsN hsC hsT hsq hx hacc hf k
  have hrk : k % (IntegerRatio.reduce inputRate outputRate).2 <
      (IntegerRatio.reduce inputRate outputRate).2 := Nat.mod_lt _ hden
  have hsT2 : s.mCoefficients = table.map embed := hsT
  have hslen : s.mCoefficients.length =
      s.mNumTaps * (IntegerRatio.reduce inputRate outputRate).2 := by
    rw [hsT2, List.length_map, hlen, hsN]
  obtain ⟨acck, fk, hk, hal, hfl⟩ := readFrames_spec s frame
    (IntegerRatio.reduce inputRate outputRate).2 0 hden hslen (by rw [hsN]; exact hN)
    (by rw [hsq, Nat.zero_mul]) hx hacc hf k
  rw [Nat.zero_add] at hk
  have hb : InBounds ({ s with mSingleFrame := acck
                               mCoefficientCursor :=
                                 (k % (IntegerRatio.reduce inputRate outputRate).2)
                                   * s.mNumTaps } : PolyphaseResampler K) :=
    ⟨by rw [hslen]; exact row_fits _ _ _ hrk,
     by rw [hslen]; exact Nat.mul_pos (by rw [hsN]; exact hN) hden, hx,
     by rw [hal]; exact hacc⟩
  obtain ⟨acc2, out, hread, -, -, hval, -⟩ := readFrame_fold_spec _ fk hb
    (by rw [hfl]; exact hf)
  refine ⟨_, fk, hk, by rw [hsN], rfl, ⟨_, out, hread, ?_⟩, ?_⟩
  · intro c hc
    rw [hval c (by rw [hsC]; exact hc)]
    unfold convolutionFold
    simp only [hsN, hsC]
  · intro tap htap
    rw [hsT2, List.getElem?_map, hrows _ tap hrk htap]
    rfl

/-- Witness of C2: 4 taps, 48000 to 44100, two channels, in IEEE arithmetic: a resampler is
constructed. -/
theorem rows_consumed_in_generation_order_witness :
    ∃ s0, PolyphaseResampler.construct ieee M_PI passedArgument 4 48000 44100 2
      = Except.ok s0 :=
  (rows_consumed_in_generation_order (id : ℚ → ℚ) ieee M_PI passedArgument 4 48000 44100 2
    (by decide) (by decide) (by decide) (by decide)).1 (by decide)

/-! ## Claims on channel separation and on the dependence on the rates -/

/-- C13: channels never mix.  For every channel `c` and any two resampler states with the
same coefficient table, coefficient cursor, write cursor, tap count and channel count
(index ranges in bounds) whose history buffers agree on the samples of channel `c`, i.e.
on every index congruent to `c` modulo `channelCount`, `readFrame` returns on both and
produces the same value in output channel `c`, whatever the other channels' history
samples, the accumulators and the output buffers hold. -/
theorem readFrame_channels_do_not_mix {K : Type} [Semiring K]
    (s1 s2 : PolyphaseResampler K) (frame1 frame2 : List K) (c : Nat)
    (hT : s1.mCoefficients = s2.mCoefficients)
    (hq : s1.mCoefficientCursor = s2.mCoefficientCursor)
    (hw : s1.mCursor = s2.mCursor) (hN : s1.mNumTaps = s2.mNumTaps)
    (hC : s1.mChannelCount = s2.mChannelCount)
    (hb1 : InBounds s1) (hb2 : InBounds s2)
    (hf1 : s1.mChannelCount ≤ frame1.length) (hf2 : s2.mChannelCount ≤ frame2.length)
    (hc : c < s1.mChannelCount)
    (hagree : ∀ j, j < s1.mX.length → j < s2.mX.length → j % s1.mChannelCount = c →
      s1.mX[j]? = s2.mX[j]?) :
    ∃ t1 out1 t2 out2, readFrame s1 frame1 = some (t1, out1) ∧
      readFrame s2 frame2 = some (t2, out2) ∧ out1[c]? = out2[c]? := by
  obtain ⟨acc1, out1, hread1, -, -, hval1, -⟩ := readFrame_spec s1 frame1 hb1 hf1
  obtain ⟨acc2, out2, hread2, -, -, hval2, -⟩ := readFrame_spec s2 frame2 hb2 hf2
  refine ⟨_, out1, _, out2, hread1, hread2, ?_⟩
  rw [hval1 c hc, hval2 c (hC ▸ hc)]
  congr 1
  unfold convolution
  rw [← hN, ← hT, ← hq, ← hw, ← hC]
  refine Finset.sum_congr rfl ?_
  intro i hi
  have hiN : i < s1.mNumTaps := Finset.mem_range.mp hi
  have hle : (s1.mCursor + s1.mNumTaps - i) * s1.mChannelCount + c <
      (s1.mCursor + s1.mNumTaps + 1) * s1.mChannelCount := by
    calc (s1.mCursor + s1.mNumTaps - i) * s1.mChannelCount + c
        < (s1.mCursor + s1.mNumTaps - i) * s1.mChannelCount + s1.mChannelCount := by omega
      _ = (s1.mCursor + s1.mNumTaps - i + 1) * s1.mChannelCount := by rw [Nat.succ_mul]
      _ ≤ (s1.mCursor + s1.mNumTaps + 1) * s1.mChannelCount :=
          Nat.mul_le_mul_right _ (by omega)
  have h1 : (s1.mCursor + s1.mNumTaps - i) * s1.mChannelCount + c < s1.mX.length :=
    lt_of_lt_of_le hle hb1.2.2.1
  have h2 : (s1.mCursor + s1.mNumTaps - i) * s1.mChannelCount + c < s2.mX.length := by
    have := hb2.2.2.1
    rw [← hw, ← hN, ← hC] at this
    exact lt_of_lt_of_le hle this
  have hmod : ((s1.mCursor + s1.mNumTaps - i) * s1.mChannelCount + c) % s1.mChannelCount
      = c := by
    rw [Nat.add_comm, Nat.add_mul_mod_self_right, Nat.mod_eq_of_lt hc]
  rw [List.getD_eq_getElem?_getD s1.mX, List.getD_eq_getElem?_getD s2.mX,
    hagree _ h1 h2 hmod]

/-- Witness of C13: `sampleState` and a state whose history differs from it in the
samples of channel 0 only agree on output channel 1. -/
theorem readFrame_channels_do_not_mix_witness :
    ∃ t1 out1 t2 out2, readFrame sampleState [0, 0, 5] = some (t1, out1) ∧
      readFrame { sampleState with mX := [0, 2, 0, 4, 0, 6, 0, 8], mSingleFrame := [3, 4, 5] }
        [1, 1] = some (t2, out2) ∧ out1[1]? = out2[1]? :=
  readFrame_channels_do_not_mix sampleState
    { sampleState with mX := [0, 2, 0, 4, 0, 6, 0, 8], mSingleFrame := [3, 4, 5] }
    [0, 0, 5] [1, 1] 1 rfl rfl rfl rfl rfl (by decide) (by decide) (by decide) (by decide)
    (by decide) (by decide)

/-- C14: the generated filter depends on the rates only through their ratio.  In exact
arithmetic, and with any rounding, for all positive `a`, `b`, `k` and every tap count that
is a multiple of 4, constructing with the rates `(k * a, k * b)` has the same outcome as
constructing with `(a, b)`: whenever the two constructions yield objects (they do when
`numTaps * denominator` fits in an `int`), these have the same numerator, the same
denominator and the same coefficient table: the same length and the same entry at every
index. -/
theorem construct_depends_on_ratio_only {F : Type} [LinearOrderedField F] [FloorRing F]
    (fp : FloatingPoint F) (pi : F) (calculateWindowedSinc : F → Nat → F)
    (numTaps k a b channelCount : Nat)
    (h4 : numTaps % 4 = 0) (hk : 0 < k) (_ha : 0 < a) (_hb : 0 < b) :
    (PolyphaseResampler.construct fp pi calculateWindowedSinc numTaps (k * a) (k * b)
        channelCount =
      PolyphaseResampler.construct fp pi calculateWindowedSinc numTaps a b channelCount) ∧
    (numTaps * (IntegerRatio.reduce a b).2 < 2 ^ 31 →
      ∃ s, PolyphaseResampler.construct fp pi calculateWindowedSinc numTaps (k * a) (k * b)
          channelCount = Except.ok s ∧
        PolyphaseResampler.construct fp pi calculateWindowedSinc numTaps a b channelCount
          = Except.ok s) ∧
    ∀ s1 s2,
      PolyphaseResampler.construct fp pi calculateWindowedSinc numTaps (k * a) (k * b)
        channelCount = Except.ok s1 →
      PolyphaseResampler.construct fp pi calculateWindowedSinc numTaps a b channelCount
        = Except.ok s2 →
      s1.mNumerator = s2.mNumerator ∧ s1.mDenominator = s2.mDenominator ∧
      s1.mCoefficients.length = s2.mCoefficients.length ∧
      (∀ i : Nat, s1.mCoefficients[i]? = s2.mCoefficients[i]?) ∧
      s1.mNumerator = (IntegerRatio.reduce a b).1 ∧
      s1.mDenominator = (IntegerRatio.reduce a b).2 := by
  have hscale := construct_scale fp pi calculateWindowedSinc numTaps k a b channelCount hk
  refine ⟨hscale, ?_, ?_⟩
  · intro hfit
    obtain ⟨table, hcon, -, -⟩ := construct_spec fp pi calculateWindowedSinc numTaps a b
      channelCount h4 hfit
    exact ⟨_, by rw [hscale, hcon], hcon⟩
  · intro s1 s2 h1 h2
    rw [hscale, h2] at h1
    have h12 := Except.ok.inj h1
    subst h12
    obtain ⟨-, hfit⟩ := construct_ok_inv fp pi calculateWindowedSinc _ _ _ _ _ h2
    obtain ⟨table, hcon, -, -⟩ := construct_spec fp pi calculateWindowedSinc numTaps a b
      channelCount h4 hfit
    rw [hcon] at h2
    have hs := Except.ok.inj h2
    subst hs
    exact ⟨rfl, rfl, rfl, fun _ => rfl, rfl, rfl⟩

/-- Witness of C14: 48000 to 44100 against 160 to 147 (`k = 300`), in IEEE arithmetic. -/
theorem construct_depends_on_ratio_only_witness :
    ∃ s, PolyphaseResampler.construct ieee M_PI passedArgument 4 (300 * 160) (300 * 147) 2
        = Except.ok s ∧
      PolyphaseResampler.construct ieee M_PI passedArgument 4 160 147 2 = Except.ok s :=
  (construct_depends_on_ratio_only ieee M_PI passedArgument 4 300 160 147 2 (by decide)
    (by decide) (by decide) (by decide)).2.1 (by decide)

/-! ## Claims on termination and on memory safety -/

/-- C12: `readFrame` never indexes out of range under the state invariant.  For every
state with `numTaps > 0`, `channelCount > 0`, a history of at least
`(w + numTaps + 1) * channelCount` entries, an accumulator of at least `channelCount`
entries and a coefficient cursor `q` that is a multiple of `numTaps` with
`q < numTaps * denominator = table length` (and an output buffer of at least
`channelCount` entries), the call returns: the error branch is not taken.  Its log of
reads has `numTaps * (channelCount + 1)` entries; every history read index lies in
`[(w + 1) * channelCount, (w + numTaps + 1) * channelCount)`, inside the history buffer, and
every coefficient read index lies in `[q, q + numTaps)`, inside the table. -/
theorem readFrame_reads_in_range {K : Type} [Semiring K] (s : PolyphaseResampler K)
    (frame : List K) (denominator : Nat) (_hN : 0 < s.mNumTaps) (_hC : 0 < s.mChannelCount)
    (hx : (s.mCursor + s.mNumTaps + 1) * s.mChannelCount ≤ s.mX.length)
    (hacc : s.mChannelCount ≤ s.mSingleFrame.length)
    (hqdvd : s.mNumTaps ∣ s.mCoefficientCursor)
    (hqlt : s.mCoefficientCursor < s.mNumTaps * denominator)
    (hlen : s.mNumTaps * denominator = s.mCoefficients.length)
    (hf : s.mChannelCount ≤ frame.length) :
    ∃ r log, readFrameTraced s frame = some (r, log) ∧ readFrame s frame = some r ∧
      readFrame s frame ≠ none ∧
      log.length = s.mNumTaps * (s.mChannelCount + 1) ∧
      (∀ j, ReadAccess.history j ∈ log →
        (s.mCursor + 1) * s.mChannelCount ≤ j ∧
        j < (s.mCursor + s.mNumTaps + 1) * s.mChannelCount ∧ j < s.mX.length) ∧
      ∀ j, ReadAccess.coefficient j ∈ log →
        s.mCoefficientCursor ≤ j ∧ j < s.mCoefficientCursor + s.mNumTaps ∧
        j < s.mCoefficients.length := by
  obtain ⟨k, hk⟩ := hqdvd
  have hkd : k < denominator := by
    rw [hk] at hqlt
    exact Nat.lt_of_mul_lt_mul_left hqlt
  have hfit : s.mCoefficientCursor + s.mNumTaps ≤ s.mCoefficients.length := by
    rw [← hlen, hk, Nat.mul_comm s.mNumTaps k]
    exact row_fits s.mNumTaps denominator k hkd
  have hb : InBounds s := ⟨hfit, by omega, hx, hacc⟩
  obtain ⟨r, log, htr, hread, hlog, hmem⟩ := readFrameTraced_spec s frame hb hf
  have hne : readFrame s frame ≠ none := by
    rw [hread]
    exact Option.some_ne_none r
  refine ⟨r, log, htr, hread, hne, hlog, ?_, ?_⟩
  · intro j hj
    exact hmem _ hj
  · intro j hj
    exact hmem _ hj

/-- Witness of C12 on `sampleState` (two rows of two taps). -/
theorem readFrame_reads_in_range_witness :
    ∃ r log, readFrameTraced sampleState [0, 0, 5] = some (r, log) ∧
      readFrame sampleState [0, 0, 5] = some r ∧
      readFrame sampleState [0, 0, 5] ≠ none ∧
      log.length = sampleState.mNumTaps * (sampleState.mChannelCount + 1) ∧
      (∀ j, ReadAccess.history j ∈ log →
        (sampleState.mCursor + 1) * sampleState.mChannelCount ≤ j ∧
        j < (sampleState.mCursor + sampleState.mNumTaps + 1) * sampleState.mChannelCount ∧
        j < sampleState.mX.length) ∧
      ∀ j, ReadAccess.coefficient j ∈ log →
        sampleState.mCoefficientCursor ≤ j ∧
        j < sampleState.mCoefficientCursor + sampleState.mNumTaps ∧
        j < sampleState.mCoefficients.length :=
  readFrame_reads_in_range sampleState [0, 0, 5] 2 (by decide) (by decide) (by decide)
    (by decide) (by decide) (by decide) (by decide) (by decide)

/-! ## Claim on the write/read protocol -/

/-- C11 (as the modelled protocol behaves): starting from a freshly constructed resampler
with reduced ratio `(num, den)` (one is constructed whenever `numTaps * den` fits in an
`int`) and driving it by calling `writeNextFrame` whenever
`isWriteNeeded()` is true and `readNextFrame` otherwise, the phase state returns to its
initial value exactly after every `num + den` calls, and every such period consists of
`den` reads and `num` writes: after `m` periods `m * den` reads and `m * num` writes have
been made and the phase state is the initial one, with no drift; in between the
accumulator stays below `den + num`. -/
theorem protocol_period_matches_ratio {F : Type} [LinearOrderedField F] [FloorRing F]
    (fp : FloatingPoint F) (pi : F) (calculateWindowedSinc : F → Nat → F)
    (numTaps inputRate outputRate channelCount : Nat) (h4 : numTaps % 4 = 0)
    (hin : 0 < inputRate) (hout : 0 < outputRate) :
    (numTaps * (IntegerRatio.reduce inputRate outputRate).2 < 2 ^ 31 →
      ∃ s0, PolyphaseResampler.construct fp pi calculateWindowedSinc numTaps inputRate
        outputRate channelCount = Except.ok s0) ∧
    ∀ s0, PolyphaseResampler.construct fp pi calculateWindowedSinc numTaps inputRate
        outputRate channelCount = Except.ok s0 →
      s0.mNumerator = (IntegerRatio.reduce inputRate outputRate).1 ∧
      s0.mDenominator = (IntegerRatio.reduce inputRate outputRate).2 ∧
      (PhaseState.isWriteNeeded s0.phaseState = true) ∧
      (∀ m, drive (m * (s0.mNumerator + s0.mDenominator)) ⟨s0.phaseState, 0, 0⟩ =
        ⟨s0.phaseState, m * s0.mDenominator, m * s0.mNumerator⟩) ∧
      (∀ n, (drive n ⟨s0.phaseState, 0, 0⟩).phase = s0.phaseState ↔
        (s0.mNumerator + s0.mDenominator) ∣ n) ∧
      ∀ n, (drive n ⟨s0.phaseState, 0, 0⟩).phase.mIntegerPhase <
        s0.mDenominator + s0.mNumerator := by
  have hnum := reduce_num_pos inputRate outputRate hin
  have hden := reduce_den_pos inputRate outputRate hout
  have hcop := reduce_coprime inputRate outputRate hout
  constructor
  · intro hfit
    obtain ⟨table, hcon, -, -⟩ := construct_spec fp pi calculateWindowedSinc numTaps
      inputRate outputRate channelCount h4 hfit
    exact ⟨_, hcon⟩
  intro s0 hs0
  obtain ⟨-, hfit⟩ := construct_ok_inv fp pi calculateWindowedSinc _ _ _ _ s0 hs0
  obtain ⟨table, hcon, -, -⟩ := construct_spec fp pi calculateWindowedSinc numTaps
    inputRate outputRate channelCount h4 hfit
  rw [hcon] at hs0
  have hs0eq := Except.ok.inj hs0
  subst hs0eq
  refine ⟨rfl, rfl, ?_, ?_, ?_, ?_⟩
  · show decide ((IntegerRatio.reduce inputRate outputRate).2 ≤
      (IntegerRatio.reduce inputRate outputRate).2) = true
    exact decide_eq_true (le_refl _)
  · exact drive_periods _ _ hnum
  · exact drive_returns_iff _ _ hnum hden hcop
  · intro n
    exact (drive_invariant _ _ 0 0 hnum n).2.2.2.2.1

/-- Witness of the amended C11: 4 taps, 48000 to 44100, two channels: a resampler is
constructed. -/
theorem protocol_period_matches_ratio_witness :
    ∃ s0, PolyphaseResampler.construct ieee M_PI passedArgument 4 48000 44100 2
      = Except.ok s0 :=
  (protocol_period_matches_ratio ieee M_PI passedArgument 4 48000 44100 2 (by decide)
    (by decide) (by decide)).1 (by decide)

/-- Counterexample to C11 as stated: for 48000 to 44100 the reduced pair is 160 : 147; the
phase state first returns to its initial value after 307 calls, and this period consists
of 147 reads and 160 writes, not of 160 reads and 147 writes. -/
theorem period_is_not_num_reads_den_writes :
    ∃ s0, PolyphaseResampler.construct ieee M_PI passedArgument 4 48000 44100 2
        = Except.ok s0 ∧
      s0.mNumerator = 160 ∧ s0.mDenominator = 147 ∧
      drive 307 ⟨s0.phaseState, 0, 0⟩ = ⟨s0.phaseState, 147, 160⟩ ∧
      (∀ n, 0 < n → n < 307 → (drive n ⟨s0.phaseState, 0, 0⟩).phase ≠ s0.phaseState) ∧
      ¬ ((drive 307 ⟨s0.phaseState, 0, 0⟩).reads = s0.mNumerator ∧
        (drive 307 ⟨s0.phaseState, 0, 0⟩).writes = s0.mDenominator) := by
  obtain ⟨table, hcon, -, -⟩ := construct_spec ieee M_PI passedArgument 4 48000 44100 2
    (by decide) (by decide)
  have hred : IntegerRatio.reduce 48000 44100 = (160, 147) := by decide
  have hper : drive 307 ⟨⟨160, 147, 147⟩, 0, 0⟩ = ⟨⟨160, 147, 147⟩, 147, 160⟩ :=
    drive_period 160 147 0 0 (by decide)
  refine ⟨_, hcon, ?_, ?_, ?_, ?_, ?_⟩
  · show (IntegerRatio.reduce 48000 44100).1 = 160
    rw [hred]
  · show (IntegerRatio.reduce 48000 44100).2 = 147
    rw [hred]
  · show drive 307 ⟨⟨(IntegerRatio.reduce 48000 44100).1,
      (IntegerRatio.reduce 48000 44100).2, (IntegerRatio.reduce 48000 44100).2⟩, 0, 0⟩ =
      ⟨⟨(IntegerRatio.reduce 48000 44100).1, (IntegerRatio.reduce 48000 44100).2,
        (IntegerRatio.reduce 48000 44100).2⟩, 147, 160⟩
    rw [hred]
    exact hper
  · intro n hn0 hn
    show (drive n ⟨⟨(IntegerRatio.reduce 48000 44100).1,
      (IntegerRatio.reduce 48000 44100).2, (IntegerRatio.reduce 48000 44100).2⟩, 0, 0⟩).phase ≠
      ⟨(IntegerRatio.reduce 48000 44100).1, (IntegerRatio.reduce 48000 44100).2,
        (IntegerRatio.reduce 48000 44100).2⟩
    rw [hred]
    exact drive_no_early_return 160 147 0 0 (by decide) (by decide) (by decide) n hn0 hn
  · show ¬ ((drive 307 ⟨⟨(IntegerRatio.reduce 48000 44100).1,
      (IntegerRatio.reduce 48000 44100).2, (IntegerRatio.reduce 48000 44100).2⟩, 0, 0⟩).reads
        = (IntegerRatio.reduce 48000 44100).1 ∧
      (drive 307 ⟨⟨(IntegerRatio.reduce 48000 44100).1,
        (IntegerRatio.reduce 48000 44100).2, (IntegerRatio.reduce 48000 44100).2⟩, 0, 0⟩).writes
        = (IntegerRatio.reduce 48000 44100).2)
    rw [hred]
    show ¬ ((drive 307 ⟨⟨160, 147, 147⟩, 0, 0⟩).reads = 160 ∧
      (drive 307 ⟨⟨160, 147, 147⟩, 0, 0⟩).writes = 147)
    rw [hper]
    decide

end flowgraph
